import Mathlib

/-!
# Verification of the `statediff` state-diff builder and service

This file embeds, in Lean, the state-diff subsystem of the repository:

* `statediff/builder.go` (package `statediff`): `BuildStateDiff`,
  `collectDiffNodes`, `buildDiffEventual`, `buildDiffIncremental`,
  `buildStorageDiffsEventual`, `buildStorageDiffsIncremental`, `addressByPath`.
* `statediff/helpers.go`: `sortKeys`, `findIntersection`, `pathToStr`,
  `hexToKeybytes`, `decodeNibbles`, `hasTerm`.
* The older revision of the builder in package `builder` (the `part_009`
  source file), whose functions are embedded under a `B` suffix.
* The subscription service (package `statediff`, the `part_004` source file):
  `Subscribe`, `Unsubscribe`, `send`, `close`, `filterByWatchedAddresses`,
  `addressInWatchedAddresses`.

Modelling conventions:

* Go `[]byte` and `string` values are `List Nat` (byte/character lists);
  Go guarantees each element is < 256, which appears here as explicit
  well-formedness hypotheses where the proofs need it.
* Go `map` values are association lists (`AMap`); insertion overwrites.
  Iteration order of a Go map is unspecified, and no embedded function
  depends on it (keys are sorted before order-sensitive use).
* Fallible Go functions return `Out α`; a run-time panic (write to a nil
  map, nil-pointer dereference, `hexToKeybytes` on an odd-length key) is
  the distinguished outcome `Out.panicked`.
* The Merkle-Patricia trie, its node/difference iterators, the RLP account
  decoder and the key-value store are external library surface
  (`github.com/ethereum/go-ethereum/trie`, `ethdb`, `rlp`; they are not part
  of the analysed sources). They are modelled from the spec: the trie is a
  tree whose iterator yields leaves with `path` (nibbles ending in the
  terminator), `leafKey`, and `blob`; the difference iterator over `(a, b)`
  skips any subtree occurring at a position where both sides have the same
  root hash and otherwise emits `b`'s leaves; since node hashes are
  content-addressed hashes (collision-free by the spec's glossary), hash
  equality is modelled as structural equality of the subtrees. Key-value
  store reads (`chainDB.Get`), account decoding (`rlp.DecodeBytes`) and
  trie opening/`TryGet` are oracle fields of an `Env` record; theorems
  quantify over all oracles.
* `common.Address.Hex` is EIP-55 checksummed hex in the library; the
  checksum only changes the letter case of an otherwise fixed hex string,
  so it is modelled as plain `"0x" ++ lowercase hex`.  Every property
  proved here depends only on the encoding being injective and on
  `common.HexToAddress` (a case-insensitive parse) being its left inverse,
  which hold for both variants.
-/

set_option autoImplicit false

universe u

variable {α : Type u}

/-- Error value returned through Go `error` results; the payload
distinguishes distinct library errors. -/
structure GoErr where
  code : Nat
deriving DecidableEq, Repr

/-- Embeds `state.Account`: the consensus account object decoded from a leaf
blob (`nonce`, `balance`, storage trie `root`, `codeHash`). -/
structure Account where
  nonce : Nat
  balance : Int
  root : List Nat
  codeHash : List Nat
deriving DecidableEq, Repr

/-- Outcome of a Go function that can return a value, return an error, or
panic at run time. -/
inductive Out (α : Type u) where
  | panicked : Out α
  | err : GoErr → Out α
  | ok : α → Out α
deriving DecidableEq, Repr

/-- Association-list model of a Go `map` with `List Nat` keys
(addresses, path strings, subscription ids are all byte/char lists). -/
abbrev AMap (α : Type u) := List (List Nat × α)

/-- Key lookup: Go `m[k]` (comma-ok form). -/
def alookup (k : List Nat) : AMap α → Option α
  | [] => none
  | (k', v) :: rest => if k' = k then some v else alookup k rest

/-- Go `delete(m, k)`. -/
def aerase (k : List Nat) (m : AMap α) : AMap α :=
  m.filter (fun p => decide (p.1 ≠ k))

/-- Go `m[k] = v` (insert-or-overwrite). -/
def ainsert (k : List Nat) (v : α) (m : AMap α) : AMap α :=
  (k, v) :: aerase k m

/-- The key set of a map (as a list). -/
def akeys (m : AMap α) : List (List Nat) := m.map Prod.fst

/-! ## Hex encodings (`common`/`hexutil` library functions) -/

/-- Embeds `hextable[n]`: the ASCII code of the lowercase hex digit for `n < 16`. -/
def hexDigitCode (n : Nat) : Nat := if n < 10 then 48 + n else 87 + n

/-- One byte as two hex digit characters, high nibble first
(`hex.EncodeToString` per byte). -/
def byteToHexChars (b : Nat) : List Nat :=
  [hexDigitCode (b / 16), hexDigitCode (b % 16)]

/-- Embeds `hexutil.Encode`: `"0x"` followed by two lowercase hex digits per byte. -/
def hexEncode (bs : List Nat) : List Nat :=
  [48, 120] ++ bs.flatMap byteToHexChars

/-- Embeds `common.ToHex`: like `hexutil.Encode` but an empty byte slice encodes
as `"0x0"`. -/
def toHex (bs : List Nat) : List Nat :=
  if bs = [] then [48, 120, 48] else hexEncode bs

/-- The value of an ASCII hex digit, case-insensitive
(`encoding/hex` digit decoding). -/
def hexDigitVal (c : Nat) : Option Nat :=
  if 48 ≤ c ∧ c ≤ 57 then some (c - 48)
  else if 97 ≤ c ∧ c ≤ 102 then some (c - 87)
  else if 65 ≤ c ∧ c ≤ 70 then some (c - 55)
  else none

/-- Embeds `common.Hex2Bytes` (via `hex.DecodeString`, which returns the bytes
decoded before the first invalid pair and drops the error). -/
def hex2Bytes : List Nat → List Nat
  | c1 :: c2 :: rest =>
    match hexDigitVal c1, hexDigitVal c2 with
    | some h, some l => (h * 16 + l) :: hex2Bytes rest
    | _, _ => []
  | _ => []

/-- The `"0x"`/`"0X"` prefix-stripping step of `common.FromHex`. -/
def stripHexPfx : List Nat → List Nat
  | 48 :: 120 :: rest => rest
  | 48 :: 88 :: rest => rest
  | s => s

/-- Embeds `common.FromHex`: strip a `0x` prefix, left-pad odd-length input with
`'0'`, then decode. -/
def fromHex (s : List Nat) : List Nat :=
  let s1 := stripHexPfx s
  hex2Bytes (if s1.length % 2 = 1 then 48 :: s1 else s1)

/-- Embeds `common.BytesToAddress`/`Address.SetBytes`: keep the last 20 bytes,
left-padding with zero bytes. -/
def bytesToAddress (b : List Nat) : List Nat :=
  let b' := if b.length > 20 then b.drop (b.length - 20) else b
  List.replicate (20 - b'.length) 0 ++ b'

/-- Embeds `common.Address.Hex` (see the header note on EIP-55 casing). -/
def addrHex (a : List Nat) : List Nat := hexEncode a

/-- Embeds `common.HexToAddress`. -/
def hexToAddress (s : List Nat) : List Nat := bytesToAddress (fromHex s)

/-- A well-formed address: 20 bytes, each < 256 (Go `common.Address`). -/
def addrWF (a : List Nat) : Prop := a.length = 20 ∧ ∀ b ∈ a, b < 256

instance (a : List Nat) : Decidable (addrWF a) := by
  unfold addrWF; infer_instance

/-! ## String comparison (`strings.Compare`, `sort.Strings`) -/

/-- Three-way comparison of byte values. -/
def byteCompare (a b : Nat) : Ordering :=
  if a < b then .lt else if b < a then .gt else .eq

/-- Go string comparison: bytewise lexicographic, a strict prefix is
smaller (`strings.Compare` returning `-1/0/1` as an `Ordering`). -/
def lexCompare : List Nat → List Nat → Ordering
  | [], [] => .eq
  | [], _ :: _ => .lt
  | _ :: _, [] => .gt
  | a :: as, b :: bs =>
    match byteCompare a b with
    | .eq => lexCompare as bs
    | o => o

/-- Embeds `a ≤ b` in Go string order. -/
def strLe (a b : List Nat) : Prop := lexCompare a b ≠ .gt

/-- Embeds `a < b` in Go string order. -/
def strLt (a b : List Nat) : Prop := lexCompare a b = .lt

instance : DecidableRel strLe := fun a b =>
  inferInstanceAs (Decidable (lexCompare a b ≠ .gt))

instance : DecidableRel strLt := fun a b =>
  inferInstanceAs (Decidable (lexCompare a b = .lt))

/-! ## Trie model and iterators (external library, modelled from the spec) -/

/-- Modelled from the spec: the Merkle-Patricia trie view (§4.1 of the
spec; the `trie` package is not among the analysed sources).  A leaf
carries the node `path` (nibbles, ending in the terminator `0x10`), the
`leafKey` (key bytes of the leaf) and the raw value `blob`; an inner node
(branch or extension) carries its children.  Since the store is
content-addressed and hashes are collision-free (spec glossary), a node
stands for its own hash: hash equality is structural equality. -/
inductive Trie where
  | leafT (path leafKey blob : List Nat) : Trie
  | node (children : List Trie) : Trie

/-- One leaf tuple as yielded by a node iterator (spec §4.1). -/
structure LeafData where
  path : List Nat
  leafKey : List Nat
  blob : List Nat
deriving DecidableEq, Repr

mutual

def trieDecEq : (a b : Trie) → Decidable (a = b)
  | .leafT p k v, .leafT p' k' v' =>
    if h : p = p' ∧ k = k' ∧ v = v' then
      isTrue (by rcases h with ⟨rfl, rfl, rfl⟩; rfl)
    else
      isFalse (by intro he; cases he; exact h ⟨rfl, rfl, rfl⟩)
  | .leafT _ _ _, .node _ => isFalse (fun h => Trie.noConfusion h)
  | .node _, .leafT _ _ _ => isFalse (fun h => Trie.noConfusion h)
  | .node cs, .node ds =>
    match trieListDecEq cs ds with
    | isTrue h => isTrue (by rw [h])
    | isFalse h => isFalse (by intro he; cases he; exact h rfl)

def trieListDecEq : (as bs : List Trie) → Decidable (as = bs)
  | [], [] => isTrue rfl
  | [], _ :: _ => isFalse (fun h => List.noConfusion h)
  | _ :: _, [] => isFalse (fun h => List.noConfusion h)
  | a :: as, b :: bs =>
    match trieDecEq a b, trieListDecEq as bs with
    | isTrue h1, isTrue h2 => isTrue (by rw [h1, h2])
    | isFalse h1, _ => isFalse (by intro he; injection he; contradiction)
    | _, isFalse h2 => isFalse (by intro he; injection he; contradiction)

end

instance : DecidableEq Trie := trieDecEq

mutual

/-- Modelled from the spec: the leaves yielded, in order, by a plain
node iterator walk of a trie (spec §4.1). -/
def leavesOf : Trie → List LeafData
  | .leafT p k b => [⟨p, k, b⟩]
  | .node cs => leavesOfL cs

def leavesOfL : List Trie → List LeafData
  | [] => []
  | t :: ts => leavesOf t ++ leavesOfL ts

end

mutual

/-- Modelled from the spec: the leaves yielded by
`trie.NewDifferenceIterator(a, b)` (spec §4.2) — every leaf of `b` except
those inside a subtree occurring at a position where both sides have equal
root hashes (such subtrees are skipped whole).  Hash equality is
structural equality of the subtrees (content-addressed store). -/
def diffLeaves (a b : Trie) : List LeafData :=
  if a = b then []
  else
    match b with
    | .leafT p k v => [⟨p, k, v⟩]
    | .node cs =>
      match a with
      | .node as => diffForest as cs
      | .leafT _ _ _ => diffForest [] cs

/-- Positional child-by-child traversal for `diffLeaves`; children of `b`
with no counterpart in `a` are emitted whole. -/
def diffForest : List Trie → List Trie → List LeafData
  | _, [] => []
  | [], b :: bs => leavesOf b ++ diffForest [] bs
  | a :: as, b :: bs => diffLeaves a b ++ diffForest as bs

end

/-- The external-collaborator surface used by the builder: `trie.New`
(trie opening from a root over `sdb.trieDB`), `chainDB.Get`,
`rlp.DecodeBytes` into a `state.Account`, and `oldTrie.TryGet` keyed by
the trie root it was opened from.  Theorems quantify over all oracles. -/
structure Env where
  openTrie : List Nat → Except GoErr Trie
  chainGet : List Nat → Except GoErr (List Nat)
  decodeAccount : List Nat → Except GoErr Account
  tryGet : List Nat → List Nat → Except GoErr (List Nat)


/-! ## `statediff/helpers.go` -/

/-- Embeds `hasTerm`: whether a hex (nibble) key ends in the terminator `16`. -/
def hasTerm (s : List Nat) : Bool :=
  decide (s.length > 0) && decide (s.getLast? = some 16)

/-- Embeds `decodeNibbles`: pack two nibbles per byte, high nibble first
(`bytes[bi] = nibbles[ni]<<4 | nibbles[ni+1]` on Go bytes). -/
def decodeNibbles : List Nat → List Nat
  | n1 :: n2 :: rest => ((n1 * 16) % 256 ||| n2 % 256) :: decodeNibbles rest
  | _ => []

/-- Embeds `hexToKeybytes`: strip the terminator and pack nibble pairs; Go panics
on an odd-length hex key (`none` here). -/
def hexToKeybytes (hex : List Nat) : Option (List Nat) :=
  let hex1 := if hasTerm hex then hex.dropLast else hex
  if hex1.length % 2 ≠ 0 then none
  else some (decodeNibbles hex1)

/-- Embeds `sortKeys`: the `Hex()` strings of the map's keys, sorted ascending
(`sort.Strings`). -/
def sortKeys (data : AMap Account) : List (List Nat) :=
  List.insertionSort strLe ((akeys data).map addrHex)

/-- Embeds `findIntersection`: merge-intersection of two ascending string lists
(the index-based loop of `helpers.go`, written structurally: `-1` advances
the left list, `0` emits and advances both, `1` advances the right list;
any exhausted side returns the accumulated result). -/
def findIntersection : List (List Nat) → List (List Nat) → List (List Nat)
  | [], _ => []
  | _, [] => []
  | a :: as, b :: bs =>
    match lexCompare a b with
    | .lt => findIntersection as (b :: bs)
    | .eq => a :: findIntersection as bs
    | .gt => findIntersection (a :: as) bs

/-- Embeds `pathToStr`: `common.ToHex` of the terminator-stripped path, with the
high hex digit of every byte after the `"0x"` prefix dropped (the
`i%2 == 0 && i > 1` loop), leaving one hex character per nibble. -/
def pathToStr (path : List Nat) : List Nat :=
  let p := if hasTerm path then path.dropLast else path
  ((toHex p).enum.filter (fun iv => !(decide (iv.1 % 2 = 0) && decide (iv.1 > 1)))).map Prod.snd

/-! ## `statediff/builder.go` (package `statediff`) -/

/-- The `"secure-key-"` preimage-table prefix, as ASCII bytes. -/
def secureKeyPfx : List Nat := [115, 101, 99, 117, 114, 101, 45, 107, 101, 121, 45]

/-- Embeds `addressByPath`: read the address preimage for
`"secure-key-" ++ hexToKeybytes(path)` from `chainDB` and convert it with
`BytesToAddress`; an odd-length path panics inside `hexToKeybytes`. -/
def addressByPath (env : Env) (path : List Nat) : Out (List Nat) :=
  match hexToKeybytes path with
  | none => .panicked
  | some key =>
    match env.chainGet (secureKeyPfx ++ key) with
    | .error e => .err e
    | .ok addrBytes => .ok (bytesToAddress addrBytes)

/-- The loop body of `collectDiffNodes` in `statediff/builder.go`, folded
over the leaves the difference iterator emits.  The accumator is
`Option`al because this revision never initialises `diffAccounts`
(`var diffAccounts map[common.Address]*state.Account`): recording a leaf
into the `none` (nil) map is a run-time panic.  Per leaf: copy the path
minus its last nibble, resolve the address, RLP-decode the blob, record. -/
def goCollectU (env : Env) : List LeafData → Option (AMap Account) → Out (AMap Account)
  | [], m => .ok (m.getD [])
  | l :: rest, m =>
    match addressByPath env l.path.dropLast with
    | .panicked => .panicked
    | .err e => .err e
    | .ok addr =>
      match env.decodeAccount l.blob with
      | .error e => .err e
      | .ok account =>
        match m with
        | none => .panicked
        | some mm => goCollectU env rest (some (ainsert addr account mm))

/-- Embeds `collectDiffNodes` (`statediff/builder.go`): walk
`NewDifferenceIterator(a, b)` and record every decoded leaf account under
its resolved address; the map is never initialised in this revision. -/
def collectDiffNodes (env : Env) (a b : Trie) : Out (AMap Account) :=
  goCollectU env (diffLeaves a b) none

/-- Embeds `diffString` (`statediff/statediff.go`): optional new/old string pair. -/
structure DiffString where
  newValue : Option (List Nat)
  oldValue : Option (List Nat)
deriving DecidableEq, Repr

/-- Embeds `diffUint64`. -/
structure DiffUint64 where
  newValue : Option Nat
  oldValue : Option Nat
deriving DecidableEq, Repr

/-- Embeds `diffBigInt`. -/
structure DiffBigInt where
  newValue : Option Int
  oldValue : Option Int
deriving DecidableEq, Repr

/-- Embeds `AccountDiffEventual` (`statediff/statediff.go`). -/
structure AccountDiffEventual where
  nonce : DiffUint64
  balance : DiffBigInt
  code : List Nat
  codeHash : List Nat
  contractRoot : DiffString
  storage : AMap DiffString
deriving DecidableEq, Repr

/-- Embeds `AccountDiffIncremental` (`statediff/statediff.go`); note that
`CodeHash` is a plain string, not a new/old pair. -/
structure AccountDiffIncremental where
  nonce : DiffUint64
  balance : DiffBigInt
  codeHash : List Nat
  contractRoot : DiffString
  storage : AMap DiffString
deriving DecidableEq, Repr

/-- Embeds `StateDiff` (`statediff/statediff.go`). -/
structure StateDiff where
  blockNumber : Int
  blockHash : List Nat
  createdAccounts : AMap AccountDiffEventual
  deletedAccounts : AMap AccountDiffEventual
  updatedAccounts : AMap AccountDiffIncremental
deriving DecidableEq, Repr

/-- Loop body of `buildStorageDiffsEventual`: for every leaf of the
storage trie record `pathToStr(path) ↦ ToHex(blob)` on the new side
(`creation`) or the old side. -/
def goStorageEv (creation : Bool) : List LeafData → AMap DiffString → AMap DiffString
  | [], m => m
  | l :: rest, m =>
    let path := pathToStr l.path
    let value := toHex l.blob
    goStorageEv creation rest
      (ainsert path (if creation then ⟨some value, none⟩ else ⟨none, some value⟩) m)

/-- Embeds `buildStorageDiffsEventual` (`statediff/builder.go`): open the storage
trie and walk all of its leaves. -/
def buildStorageDiffsEventual (env : Env) (sr : List Nat) (creation : Bool) :
    Out (AMap DiffString) :=
  match env.openTrie sr with
  | .error e => .err e
  | .ok t => .ok (goStorageEv creation (leavesOf t) [])

/-- Loop body of `buildStorageDiffsIncremental`: for every leaf emitted by
the difference iterator, look the old value up in the old trie by leaf
key; on a lookup error the slot is only logged and skipped, otherwise
both sides are recorded. -/
def goStorageInc (env : Env) (oldSR : List Nat) : List LeafData → AMap DiffString → AMap DiffString
  | [], m => m
  | l :: rest, m =>
    let path := pathToStr l.path
    let value := toHex l.blob
    match env.tryGet oldSR l.leafKey with
    | .error _ => goStorageInc env oldSR rest m
    | .ok oldVal => goStorageInc env oldSR rest (ainsert path ⟨some value, some (toHex oldVal)⟩ m)

/-- Embeds `buildStorageDiffsIncremental` (`statediff/builder.go`): open both
storage tries and walk `NewDifferenceIterator(old, new)`. -/
def buildStorageDiffsIncremental (env : Env) (oldSR newSR : List Nat) :
    Out (AMap DiffString) :=
  match env.openTrie oldSR with
  | .error e => .err e
  | .ok oldT =>
    match env.openTrie newSR with
    | .error e => .err e
    | .ok newT => .ok (goStorageInc env oldSR (diffLeaves oldT newT) [])

/-- Loop body of `buildDiffEventual`: per account, build the eventual
storage diff for its root (failure aborts), fetch the code blob by code
hash (failure or empty blob leaves `code = ""`), and record a one-sided
`AccountDiffEventual` — new-side fields (with `Code`) when `created`,
old-side fields (without `Code`) otherwise. -/
def goEv (env : Env) (created : Bool) : AMap Account → AMap AccountDiffEventual → Out (AMap AccountDiffEventual)
  | [], acc => .ok acc
  | (addr, val) :: rest, acc =>
    match buildStorageDiffsEventual env val.root created with
    | .panicked => .panicked
    | .err e => .err e
    | .ok storageDiffs =>
      let code : List Nat :=
        match env.chainGet val.codeHash with
        | .ok codeBytes => if codeBytes ≠ [] then toHex codeBytes else []
        | .error _ => []
      let codeHash := toHex val.codeHash
      let hexRoot := hexEncode val.root
      let entry : AccountDiffEventual :=
        if created then
          { nonce := ⟨some val.nonce, none⟩
            balance := ⟨some val.balance, none⟩
            code := code
            codeHash := codeHash
            contractRoot := ⟨some hexRoot, none⟩
            storage := storageDiffs }
        else
          { nonce := ⟨none, some val.nonce⟩
            balance := ⟨none, some val.balance⟩
            code := []
            codeHash := codeHash
            contractRoot := ⟨none, some hexRoot⟩
            storage := storageDiffs }
      goEv env created rest (ainsert addr entry acc)

/-- Embeds `buildDiffEventual` (`statediff/builder.go`). -/
def buildDiffEventual (env : Env) (accounts : AMap Account) (created : Bool) :
    Out (AMap AccountDiffEventual) :=
  goEv env created accounts []

/-- Loop body of `buildDiffIncremental`: for each updated key, index
`creations` and `deletions` at `HexToAddress(val)` (a missing entry is a
nil `*state.Account` whose `.Root` dereference panics), build the
incremental storage diff over the two roots (failure aborts), record an
`AccountDiffIncremental` with new/old `nonce`, `balance`, `contractRoot`,
the created account's `CodeHash` string, and delete the address from both
maps. -/
def goInc (env : Env) : List (List Nat) → AMap Account → AMap Account →
    AMap AccountDiffIncremental → Out (AMap AccountDiffIncremental × AMap Account × AMap Account)
  | [], c, d, acc => .ok (acc, c, d)
  | val :: rest, c, d, acc =>
    match alookup (hexToAddress val) c, alookup (hexToAddress val) d with
    | some createdAcc, some deletedAcc =>
      match buildStorageDiffsIncremental env deletedAcc.root createdAcc.root with
      | .panicked => .panicked
      | .err e => .err e
      | .ok storageDiffs =>
        let entry : AccountDiffIncremental :=
          { nonce := ⟨some createdAcc.nonce, some deletedAcc.nonce⟩
            balance := ⟨some createdAcc.balance, some deletedAcc.balance⟩
            codeHash := toHex createdAcc.codeHash
            contractRoot := ⟨some (hexEncode createdAcc.root), some (hexEncode deletedAcc.root)⟩
            storage := storageDiffs }
        goInc env rest (aerase (hexToAddress val) c) (aerase (hexToAddress val) d)
          (ainsert (hexToAddress val) entry acc)
    | _, _ => .panicked

/-- Embeds `buildDiffIncremental` (`statediff/builder.go`); the Go function
mutates the two maps it receives, so the model returns them alongside the
updated-account map. -/
def buildDiffIncremental (env : Env) (creations deletions : AMap Account)
    (updatedKeys : List (List Nat)) :
    Out (AMap AccountDiffIncremental × AMap Account × AMap Account) :=
  goInc env updatedKeys creations deletions []

/-- Embeds `BuildStateDiff` (`statediff/builder.go`): open both tries, collect
creations over `diff(old → new)` and deletions over `diff(new → old)`,
intersect the sorted key strings, build updated accounts (removing them
from both sides), then the created and deleted accounts from what is
left. -/
def BuildStateDiff (env : Env) (oldStateRoot newStateRoot : List Nat)
    (blockNumber : Int) (blockHash : List Nat) : Out StateDiff :=
  match env.openTrie oldStateRoot with
  | .error e => .err e
  | .ok oldTrie =>
    match env.openTrie newStateRoot with
    | .error e => .err e
    | .ok newTrie =>
      match collectDiffNodes env oldTrie newTrie with
      | .panicked => .panicked
      | .err e => .err e
      | .ok creations =>
        match collectDiffNodes env newTrie oldTrie with
        | .panicked => .panicked
        | .err e => .err e
        | .ok deletions =>
          let createKeys := sortKeys creations
          let deleteKeys := sortKeys deletions
          let updatedKeys := findIntersection createKeys deleteKeys
          match buildDiffIncremental env creations deletions updatedKeys with
          | .panicked => .panicked
          | .err e => .err e
          | .ok incResult =>
            let updatedAccounts := incResult.1
            let creations1 := incResult.2.1
            let deletions1 := incResult.2.2
            match buildDiffEventual env creations1 true with
            | .panicked => .panicked
            | .err e => .err e
            | .ok createdAccounts =>
              match buildDiffEventual env deletions1 false with
              | .panicked => .panicked
              | .err e => .err e
              | .ok deletedAccounts =>
                .ok { blockNumber := blockNumber
                      blockHash := blockHash
                      createdAccounts := createdAccounts
                      deletedAccounts := deletedAccounts
                      updatedAccounts := updatedAccounts }

/-! ## The `part_009` builder revision (package `builder`)

Same pipeline, but: `collectDiffNodes` initialises its map
(`var diffAccounts = make(...)`), every diff field is a single-valued
`Diff*{Value: ...}` (types reconstructed from their uses in this package
and its tests, the type file of the package not being among the sources),
string encoding is `hexutil.Encode`, the eventual `Code` field carries
the raw code bytes, and the incremental storage differ does not look up
old values. -/

/-- Embeds `DiffString` of package `builder`: a single optional value. -/
structure DiffStringB where
  value : Option (List Nat)
deriving DecidableEq, Repr

/-- Embeds `DiffUint64` of package `builder`. -/
structure DiffUint64B where
  value : Option Nat
deriving DecidableEq, Repr

/-- Embeds `DiffBigInt` of package `builder`. -/
structure DiffBigIntB where
  value : Option Int
deriving DecidableEq, Repr

/-- Embeds `AccountDiffEventual` of package `builder`. -/
structure AccountDiffEventualB where
  nonce : DiffUint64B
  balance : DiffBigIntB
  codeHash : List Nat
  code : List Nat
  contractRoot : DiffStringB
  storage : AMap DiffStringB
deriving DecidableEq, Repr

/-- Embeds `AccountDiffIncremental` of package `builder`. -/
structure AccountDiffIncrementalB where
  nonce : DiffUint64B
  balance : DiffBigIntB
  codeHash : List Nat
  contractRoot : DiffStringB
  storage : AMap DiffStringB
deriving DecidableEq, Repr

/-- Embeds `StateDiff` of package `builder`. -/
structure StateDiffB where
  blockNumber : Int
  blockHash : List Nat
  createdAccounts : AMap AccountDiffEventualB
  deletedAccounts : AMap AccountDiffEventualB
  updatedAccounts : AMap AccountDiffIncrementalB
deriving DecidableEq, Repr

/-- Loop body of `collectDiffNodes` in `part_009`; identical to the
`statediff` revision except that the accumulator map exists from the
start. -/
def goCollectB (env : Env) : List LeafData → AMap Account → Out (AMap Account)
  | [], m => .ok m
  | l :: rest, m =>
    match addressByPath env l.path.dropLast with
    | .panicked => .panicked
    | .err e => .err e
    | .ok addr =>
      match env.decodeAccount l.blob with
      | .error e => .err e
      | .ok account => goCollectB env rest (ainsert addr account m)

/-- Embeds `collectDiffNodes` (`part_009`, package `builder`):
`var diffAccounts = make(map[common.Address]*state.Account)`. -/
def collectDiffNodesB (env : Env) (a b : Trie) : Out (AMap Account) :=
  goCollectB env (diffLeaves a b) []

/-- Loop body of `buildStorageDiffsEventual` (`part_009`): every leaf is
recorded as a single `Value`, `creation` unused inside the loop. -/
def goStorageEvB : List LeafData → AMap DiffStringB → AMap DiffStringB
  | [], m => m
  | l :: rest, m =>
    goStorageEvB rest (ainsert (pathToStr l.path) ⟨some (hexEncode l.blob)⟩ m)

/-- Embeds `buildStorageDiffsEventual` (`part_009`). -/
def buildStorageDiffsEventualB (env : Env) (sr : List Nat) : Out (AMap DiffStringB) :=
  match env.openTrie sr with
  | .error e => .err e
  | .ok t => .ok (goStorageEvB (leavesOf t) [])

/-- Loop body of `buildStorageDiffsIncremental` (`part_009`): like the
eventual walk but over the difference iterator; no old-value lookup. -/
def goStorageIncB : List LeafData → AMap DiffStringB → AMap DiffStringB
  | [], m => m
  | l :: rest, m =>
    goStorageIncB rest (ainsert (pathToStr l.path) ⟨some (hexEncode l.blob)⟩ m)

/-- Embeds `buildStorageDiffsIncremental` (`part_009`). -/
def buildStorageDiffsIncrementalB (env : Env) (oldSR newSR : List Nat) :
    Out (AMap DiffStringB) :=
  match env.openTrie oldSR with
  | .error e => .err e
  | .ok oldT =>
    match env.openTrie newSR with
    | .error e => .err e
    | .ok newT => .ok (goStorageIncB (diffLeaves oldT newT) [])

/-- Loop body of `buildDiffEventual` (`part_009`): single-valued fields,
raw `codeBytes` (nil on a store error) in `Code`, `hexutil.Encode`d
code hash. -/
def goEvB (env : Env) : AMap Account → AMap AccountDiffEventualB → Out (AMap AccountDiffEventualB)
  | [], acc => .ok acc
  | (addr, val) :: rest, acc =>
    match buildStorageDiffsEventualB env val.root with
    | .panicked => .panicked
    | .err e => .err e
    | .ok storageDiffs =>
      let codeBytes : List Nat :=
        match env.chainGet val.codeHash with
        | .ok bs => bs
        | .error _ => []
      let entry : AccountDiffEventualB :=
        { nonce := ⟨some val.nonce⟩
          balance := ⟨some val.balance⟩
          codeHash := hexEncode val.codeHash
          code := codeBytes
          contractRoot := ⟨some (hexEncode val.root)⟩
          storage := storageDiffs }
      goEvB env rest (ainsert addr entry acc)

/-- Embeds `buildDiffEventual` (`part_009`); the `created` flag is received but
not used by the loop body of this revision. -/
def buildDiffEventualB (env : Env) (accounts : AMap Account) (_created : Bool) :
    Out (AMap AccountDiffEventualB) :=
  goEvB env accounts []

/-- Loop body of `buildDiffIncremental` (`part_009`): index both maps at
`HexToAddress(val)` (nil dereference panics), build the incremental
storage diff over `(deleted.Root, created.Root)`, record the new-side
single-valued fields, and delete the address from both maps. -/
def goIncB (env : Env) : List (List Nat) → AMap Account → AMap Account →
    AMap AccountDiffIncrementalB → Out (AMap AccountDiffIncrementalB × AMap Account × AMap Account)
  | [], c, d, acc => .ok (acc, c, d)
  | val :: rest, c, d, acc =>
    match alookup (hexToAddress val) c, alookup (hexToAddress val) d with
    | some createdAcc, some deletedAcc =>
      match buildStorageDiffsIncrementalB env deletedAcc.root createdAcc.root with
      | .panicked => .panicked
      | .err e => .err e
      | .ok storageDiffs =>
        let entry : AccountDiffIncrementalB :=
          { nonce := ⟨some createdAcc.nonce⟩
            balance := ⟨some createdAcc.balance⟩
            codeHash := hexEncode createdAcc.codeHash
            contractRoot := ⟨some (hexEncode createdAcc.root)⟩
            storage := storageDiffs }
        goIncB env rest (aerase (hexToAddress val) c) (aerase (hexToAddress val) d)
          (ainsert (hexToAddress val) entry acc)
    | _, _ => .panicked

/-- Embeds `buildDiffIncremental` (`part_009`). -/
def buildDiffIncrementalB (env : Env) (creations deletions : AMap Account)
    (updatedKeys : List (List Nat)) :
    Out (AMap AccountDiffIncrementalB × AMap Account × AMap Account) :=
  goIncB env updatedKeys creations deletions []

/-- Embeds `BuildStateDiff` (`part_009`, package `builder`). -/
def BuildStateDiffB (env : Env) (oldStateRoot newStateRoot : List Nat)
    (blockNumber : Int) (blockHash : List Nat) : Out StateDiffB :=
  match env.openTrie oldStateRoot with
  | .error e => .err e
  | .ok oldTrie =>
    match env.openTrie newStateRoot with
    | .error e => .err e
    | .ok newTrie =>
      match collectDiffNodesB env oldTrie newTrie with
      | .panicked => .panicked
      | .err e => .err e
      | .ok creations =>
        match collectDiffNodesB env newTrie oldTrie with
        | .panicked => .panicked
        | .err e => .err e
        | .ok deletions =>
          let createKeys := sortKeys creations
          let deleteKeys := sortKeys deletions
          let updatedKeys := findIntersection createKeys deleteKeys
          match buildDiffIncrementalB env creations deletions updatedKeys with
          | .panicked => .panicked
          | .err e => .err e
          | .ok incResult =>
            let updatedAccounts := incResult.1
            let creations1 := incResult.2.1
            let deletions1 := incResult.2.2
            match buildDiffEventualB env creations1 true with
            | .panicked => .panicked
            | .err e => .err e
            | .ok createdAccounts =>
              match buildDiffEventualB env deletions1 false with
              | .panicked => .panicked
              | .err e => .err e
              | .ok deletedAccounts =>
                .ok { blockNumber := blockNumber
                      blockHash := blockHash
                      createdAccounts := createdAccounts
                      deletedAccounts := deletedAccounts
                      updatedAccounts := updatedAccounts }

/-! ## The subscription service (`part_004`, package `statediff`) -/

/-- Embeds `Subscription`: the two channels a subscriber registers.  Channels are
opaque here; each carries an identity, and channel readiness at an
operation is an oracle argument of that operation. -/
structure Subn where
  payloadChan : Nat
  quitChan : Nat
deriving DecidableEq, Repr

/-- The service state observed between operations: the subscription
registry and the `subscribers` gate (an `int32` touched only through
compare-and-swap). -/
structure SvcState where
  subs : AMap Subn
  gate : Int
deriving DecidableEq, Repr

/-- Embeds `atomic.CompareAndSwapInt32(&v, old, new)`, returning the new value
of `v`. -/
def cas (v old new : Int) : Int := if v = old then new else v

/-- What an operation emitted: quit signals that landed (subscription
ids), and the returned error, if any. -/
structure OpOut where
  quitSignalled : List (List Nat)
  errOut : Option GoErr
deriving DecidableEq, Repr

/-- Embeds `Service.Subscribe`: CAS the gate from 0 to 1, then insert (or
overwrite) the subscription under its id. -/
def subscribeSvc (id : List Nat) (sn : Subn) (s : SvcState) : SvcState × OpOut :=
  (⟨ainsert id sn s.subs, cas s.gate 0 1⟩, ⟨[], none⟩)

/-- Embeds `Service.Unsubscribe`: error if the id is absent; otherwise delete it
and, if the registry became empty, CAS the gate from 1 to 0. -/
def unsubscribeSvc (id : List Nat) (s : SvcState) : SvcState × OpOut :=
  match alookup id s.subs with
  | none => (s, ⟨[], some ⟨1⟩⟩)
  | some _ =>
    let subs1 := aerase id s.subs
    (⟨subs1, if subs1 = [] then cas s.gate 1 0 else s.gate⟩, ⟨[], none⟩)

/-- Embeds `Service.send`: non-blocking send of the payload to every
subscription; a subscription whose payload channel is not ready
(`ready id = false`) gets a best-effort non-blocking quit signal (landing
iff `quitReady id`) and is deleted either way; if the registry is empty
after the pass, CAS the gate from 1 to 0. -/
def sendSvc (ready quitReady : List Nat → Bool) (s : SvcState) : SvcState × OpOut :=
  let kept := s.subs.filter (fun p => ready p.1)
  let evicted := s.subs.filter (fun p => !ready p.1)
  let signalled := (evicted.filter (fun p => quitReady p.1)).map Prod.fst
  (⟨kept, if kept = [] then cas s.gate 1 0 else s.gate⟩, ⟨signalled, none⟩)

/-- Embeds `Service.close`: best-effort non-blocking quit signal to every
subscription, deleting each; the gate is not touched. -/
def closeSvc (quitReady : List Nat → Bool) (s : SvcState) : SvcState × OpOut :=
  (⟨[], s.gate⟩, ⟨(s.subs.filter (fun p => quitReady p.1)).map Prod.fst, none⟩)

/-- One registry-touching service operation, with the channel-readiness
oracles an execution of it observed. -/
inductive SOp where
  | subOp (id : List Nat) (sn : Subn) : SOp
  | unsubOp (id : List Nat) : SOp
  | sendOp (ready quitReady : List Nat → Bool) : SOp
  | closeOp (quitReady : List Nat → Bool) : SOp

/-- The state transition of one operation. -/
def stepSvc (op : SOp) (s : SvcState) : SvcState :=
  match op with
  | .subOp id sn => (subscribeSvc id sn s).1
  | .unsubOp id => (unsubscribeSvc id s).1
  | .sendOp ready quitReady => (sendSvc ready quitReady s).1
  | .closeOp quitReady => (closeSvc quitReady s).1

/-- Run a sequence of operations. -/
def runOps (s : SvcState) : List SOp → SvcState
  | [] => s
  | op :: rest => runOps (stepSvc op s) rest

/-- The state of a freshly constructed service (`NewStateDiffService`):
empty registry, gate 0. -/
def initSvc : SvcState := ⟨[], 0⟩

/-- The gate/registry invariant claimed by the spec, together with the
range of the gate: the gate is 0 or 1, and it is 1 exactly when the
registry is non-empty. -/
def svcInv (s : SvcState) : Prop :=
  (s.gate = 0 ∨ s.gate = 1) ∧ (s.gate = 1 ↔ s.subs ≠ [])

/-- Embeds `state.ModifiedAccount` (external `core/state` type used by the
service loop): the account and its changed storage. -/
structure ModifiedAccount where
  account : Account
  storage : AMap (List Nat)
deriving DecidableEq, Repr

/-- Embeds `Service.addressInWatchedAddresses`: linear scan comparing the
checksummed hex form of each configured watched-address string against
the checksummed hex of the address. -/
def addressInWatchedAddresses (watched : List (List Nat)) (address : List Nat) : Bool :=
  watched.any (fun w => decide (addrHex (hexToAddress w) = addrHex address))

/-- Embeds `Service.filterByWatchedAddresses`: with a non-empty watched list,
rebuild the state-change map keeping only watched addresses; with an
empty list, return the input unchanged. -/
def filterByWatchedAddresses (watched : List (List Nat)) (stateChanges : AMap ModifiedAccount) :
    AMap ModifiedAccount :=
  if watched.length > 0 then
    stateChanges.filter (fun p => addressInWatchedAddresses watched p.1)
  else
    stateChanges

/-! ## Environment well-formedness and concrete test fixtures -/

/-- Byte-typing of the external store: `chainDB.Get` returns Go bytes,
each < 256. -/
def EnvWF (env : Env) : Prop :=
  ∀ k v, env.chainGet k = Except.ok v → ∀ b ∈ v, b < 256

/-- A trivial environment whose every oracle succeeds with an empty
answer. -/
def envTriv : Env :=
  { openTrie := fun _ => .ok (.node [])
    chainGet := fun _ => .ok []
    decodeAccount := fun _ => .ok ⟨0, 0, [], []⟩
    tryGet := fun _ _ => .ok [] }

/-- Account fixture decoded in the `collectDiffNodes` scenario. -/
def acct2x : Account := ⟨5, 9, [], []⟩

/-- Old-side trie of the `collectDiffNodes` scenario: an empty branch. -/
def tA2 : Trie := .node []

/-- New-side trie of the `collectDiffNodes` scenario: one leaf at nibble
path `[1, 2]` plus terminator. -/
def tB2 : Trie := .leafT [1, 2, 16] [18] [7]

/-- Environment for the `collectDiffNodes` scenario: the preimage table
answers a fixed 20-byte address and the blob decodes to `acct2x`. -/
def env2x : Env :=
  { openTrie := fun _ => .ok (.node [])
    chainGet := fun _ => .ok (List.replicate 20 1)
    decodeAccount := fun _ => .ok acct2x
    tryGet := fun _ _ => .ok [] }

/-- Old storage trie of the incremental-storage scenarios. -/
def trOld5 : Trie := .leafT [1, 16] [1] [5]

/-- New storage trie of the incremental-storage scenarios. -/
def trNew5 : Trie := .leafT [2, 16] [2] [6]

/-- Environment whose old-trie `TryGet` always fails with a node-store
error. -/
def env5x : Env :=
  { openTrie := fun r => if r = [0] then .ok trOld5 else .ok trNew5
    chainGet := fun _ => .ok []
    decodeAccount := fun _ => .ok ⟨0, 0, [], []⟩
    tryGet := fun _ _ => .error ⟨3⟩ }

/-- Environment whose old-trie `TryGet` always succeeds with `[9]`. -/
def env5w : Env :=
  { openTrie := fun r => if r = [0] then .ok trOld5 else .ok trNew5
    chainGet := fun _ => .ok []
    decodeAccount := fun _ => .ok ⟨0, 0, [], []⟩
    tryGet := fun _ _ => .ok [9] }

/-- The zero address. -/
def addr6 : List Nat := List.replicate 20 0

/-- New-side account of the updated-account scenario (code hash `0x0a`). -/
def ca6 : Account := ⟨1, 5, [], [10]⟩

/-- Old-side account of the updated-account scenario (code hash `0x0b`). -/
def da6 : Account := ⟨0, 3, [], [11]⟩

/-- Environment of the updated-account scenario: both storage roots open
to the same empty branch node. -/
def env6x : Env :=
  { openTrie := fun _ => .ok (.node [])
    chainGet := fun _ => .ok []
    decodeAccount := fun _ => .ok ca6
    tryGet := fun _ _ => .ok [] }

/-- The updated-account entry `buildDiffIncremental` produces in the
scenario of `env6x`. -/
def c6entry : AccountDiffIncremental :=
  { nonce := ⟨some 1, some 0⟩
    balance := ⟨some 5, some 3⟩
    codeHash := toHex ca6.codeHash
    contractRoot := ⟨some (hexEncode ca6.root), some (hexEncode da6.root)⟩
    storage := [] }

/-- Address fixture for the intersection scenario. -/
def a4 : List Nat := List.replicate 20 2

/-- Address fixture for the watched-address scenario. -/
def a9 : List Nat := List.replicate 20 3

/-- Second address fixture for the watched-address scenario. -/
def b9 : List Nat := List.replicate 20 4

/-- Modified-account fixture for the watched-address scenario. -/
def ma9 : ModifiedAccount := ⟨⟨1, 1, [], []⟩, []⟩

/-- Second modified-account fixture for the watched-address scenario. -/
def mb9 : ModifiedAccount := ⟨⟨2, 2, [], []⟩, []⟩
/-! ## Association-map lemmas -/

theorem aerase_cons_self {p : List Nat × α} {rest : AMap α} {k : List Nat} (h : p.1 = k) :
    aerase k (p :: rest) = aerase k rest := by
  simp [aerase, List.filter_cons, h]

theorem aerase_cons_ne {p : List Nat × α} {rest : AMap α} {k : List Nat} (h : p.1 ≠ k) :
    aerase k (p :: rest) = p :: aerase k rest := by
  simp [aerase, List.filter_cons, h]

theorem alookup_aerase_self {m : AMap α} (k : List Nat) : alookup k (aerase k m) = none := by
  induction m with
  | nil => rfl
  | cons p rest ih =>
    by_cases h : p.1 = k
    · rwa [aerase_cons_self h]
    · rw [aerase_cons_ne h, alookup, if_neg h]
      exact ih

theorem alookup_aerase_ne {m : AMap α} {k k' : List Nat} (h : k' ≠ k) :
    alookup k' (aerase k m) = alookup k' m := by
  induction m with
  | nil => rfl
  | cons p rest ih =>
    by_cases hk : p.1 = k
    · have hne : p.1 ≠ k' := by rw [hk]; exact fun he => h he.symm
      rw [aerase_cons_self hk, alookup, if_neg hne]
      exact ih
    · rw [aerase_cons_ne hk, alookup, alookup]
      by_cases hk' : p.1 = k'
      · rw [if_pos hk', if_pos hk']
      · rw [if_neg hk', if_neg hk']
        exact ih

theorem alookup_ainsert_self {m : AMap α} (k : List Nat) (v : α) :
    alookup k (ainsert k v m) = some v := by
  simp [ainsert, alookup]

theorem alookup_ainsert_ne {m : AMap α} {k k' : List Nat} (h : k' ≠ k) (v : α) :
    alookup k' (ainsert k v m) = alookup k' m := by
  have hne : k ≠ k' := fun he => h he.symm
  rw [ainsert, alookup, if_neg hne]
  exact alookup_aerase_ne h

theorem mem_akeys_alookup {m : AMap α} {k : List Nat} :
    k ∈ akeys m ↔ alookup k m ≠ none := by
  induction m with
  | nil => simp [akeys, alookup]
  | cons p rest ih =>
    rw [akeys, List.map_cons, List.mem_cons, alookup]
    by_cases h : p.1 = k
    · simp [h]
    · rw [if_neg h, ← akeys]
      constructor
      · intro hc
        rcases hc with hc | hc
        · exact absurd hc.symm h
        · exact ih.mp hc
      · intro hc; exact Or.inr (ih.mpr hc)

theorem mem_akeys_aerase {m : AMap α} {k k' : List Nat} :
    k' ∈ akeys (aerase k m) ↔ k' ∈ akeys m ∧ k' ≠ k := by
  by_cases h : k' = k
  · subst h
    simp [mem_akeys_alookup, alookup_aerase_self]
  · simp [mem_akeys_alookup, alookup_aerase_ne h, h]

theorem mem_akeys_ainsert {m : AMap α} {k k' : List Nat} {v : α} :
    k' ∈ akeys (ainsert k v m) ↔ k' = k ∨ k' ∈ akeys m := by
  by_cases h : k' = k
  · subst h; simp [mem_akeys_alookup, alookup_ainsert_self]
  · simp [mem_akeys_alookup, alookup_ainsert_ne h, h]

theorem alookup_filter_key {m : AMap α} (f : List Nat → Bool) (k : List Nat) :
    alookup k (m.filter (fun p => f p.1)) = if f k then alookup k m else none := by
  induction m with
  | nil => simp [alookup]
  | cons p rest ih =>
    rw [List.filter_cons]
    by_cases hk : p.1 = k
    · subst hk
      by_cases hf : f p.1
      · rw [if_pos hf, alookup, if_pos rfl, alookup, if_pos rfl, if_pos hf]
      · rw [if_neg hf, ih, alookup, if_pos rfl]
        simp [hf]
    · by_cases hf : f p.1
      · rw [if_pos hf, alookup, if_neg hk, ih, alookup, if_neg hk]
      · rw [if_neg hf, ih, alookup, if_neg hk]

theorem aerase_length {m : AMap α} {k : List Nat} {v : α}
    (hmem : alookup k m = some v) (hnd : (akeys m).Nodup) :
    (aerase k m).length + 1 = m.length := by
  induction m with
  | nil => simp [alookup] at hmem
  | cons p rest ih =>
    rw [akeys, List.map_cons, List.nodup_cons] at hnd
    by_cases hk : p.1 = k
    · have herase : aerase k rest = rest := by
        apply List.filter_eq_self.mpr
        intro q hq
        have hmemq : q.1 ∈ List.map Prod.fst rest := List.mem_map_of_mem Prod.fst hq
        simp only [decide_eq_true_eq]
        intro he
        rw [he, ← hk] at hmemq
        exact hnd.1 hmemq
      rw [aerase_cons_self hk, herase, List.length_cons]
    · rw [alookup, if_neg hk] at hmem
      rw [aerase_cons_ne hk, List.length_cons, List.length_cons]
      rw [ih hmem hnd.2]

/-! ## Byte and string comparison lemmas -/

theorem byteCompare_eq_iff {a b : Nat} : byteCompare a b = .eq ↔ a = b := by
  unfold byteCompare; split_ifs <;> simp_all <;> omega

theorem byteCompare_lt_iff {a b : Nat} : byteCompare a b = .lt ↔ a < b := by
  unfold byteCompare; split_ifs <;> simp_all

theorem byteCompare_gt_iff {a b : Nat} : byteCompare a b = .gt ↔ b < a := by
  unfold byteCompare; split_ifs <;> simp_all <;> omega

theorem lexCompare_cons (x y : Nat) (as bs : List Nat) :
    lexCompare (x :: as) (y :: bs) =
      match byteCompare x y with
      | .eq => lexCompare as bs
      | o => o := rfl

theorem lexCompare_eq_iff : ∀ {a b : List Nat}, lexCompare a b = .eq ↔ a = b := by
  intro a
  induction a with
  | nil => intro b; cases b <;> simp [lexCompare]
  | cons x as ih =>
    intro b
    cases b with
    | nil => simp [lexCompare]
    | cons y bs =>
      rw [lexCompare_cons]
      rcases hxy : byteCompare x y with h | h | h
      · simp only [List.cons.injEq]
        constructor
        · intro hc; cases hc
        · rintro ⟨rfl, rfl⟩
          rw [byteCompare_eq_iff.mpr rfl] at hxy
          cases hxy
      · have hx : x = y := byteCompare_eq_iff.mp hxy
        subst hx
        simp only [List.cons.injEq, true_and]
        exact ih
      · simp only [List.cons.injEq]
        constructor
        · intro hc; cases hc
        · rintro ⟨rfl, rfl⟩
          rw [byteCompare_eq_iff.mpr rfl] at hxy
          cases hxy

theorem lexCompare_self (a : List Nat) : lexCompare a a = .eq :=
  lexCompare_eq_iff.mpr rfl

theorem lexCompare_swap : ∀ (a b : List Nat), lexCompare b a = (lexCompare a b).swap := by
  intro a
  induction a with
  | nil => intro b; cases b <;> simp [lexCompare, Ordering.swap]
  | cons x as ih =>
    intro b
    cases b with
    | nil => simp [lexCompare, Ordering.swap]
    | cons y bs =>
      rw [lexCompare_cons, lexCompare_cons]
      rcases hxy : byteCompare x y with h | h | h
      · rw [byteCompare_gt_iff.mpr (byteCompare_lt_iff.mp hxy)]
        simp [Ordering.swap]
      · rw [byteCompare_eq_iff.mpr (byteCompare_eq_iff.mp hxy).symm]
        simpa using ih bs
      · rw [byteCompare_lt_iff.mpr (byteCompare_gt_iff.mp hxy)]
        simp [Ordering.swap]

theorem lexCompare_lt_trans :
    ∀ {a b c : List Nat}, lexCompare a b = .lt → lexCompare b c = .lt → lexCompare a c = .lt := by
  intro a
  induction a with
  | nil =>
    intro b c hab hbc
    cases b with
    | nil => cases hab
    | cons y bs =>
      cases c with
      | nil => cases hbc
      | cons z cs => simp [lexCompare]
  | cons x as ih =>
    intro b c hab hbc
    cases b with
    | nil => cases hab
    | cons y bs =>
      cases c with
      | nil => cases hbc
      | cons z cs =>
        rw [lexCompare_cons] at hab hbc ⊢
        rcases hxy : byteCompare x y with h | h | h <;> simp only [hxy] at hab
        · rcases hyz : byteCompare y z with h2 | h2 | h2 <;> simp only [hyz] at hbc
          · rw [byteCompare_lt_iff.mpr
              (Nat.lt_trans (byteCompare_lt_iff.mp hxy) (byteCompare_lt_iff.mp hyz))]
          · have hy : y = z := byteCompare_eq_iff.mp hyz
            rw [← hy, hxy]
          · cases hbc
        · have hx : x = y := byteCompare_eq_iff.mp hxy
          subst hx
          rcases hyz : byteCompare x z with h2 | h2 | h2 <;> simp only [hyz] at hbc ⊢
          · exact ih hab hbc
          · exact hbc
        · cases hab

theorem strLe_or_eq_of_le {a b : List Nat} (h : strLe a b) :
    lexCompare a b = .lt ∨ a = b := by
  rcases hc : lexCompare a b with h1 | h1 | h1
  · exact Or.inl rfl
  · exact Or.inr (lexCompare_eq_iff.mp hc)
  · exact absurd hc h

theorem strLt_of_lt_of_le {a b c : List Nat} (h1 : strLt a b) (h2 : strLe b c) : strLt a c := by
  rcases strLe_or_eq_of_le h2 with h | h
  · exact lexCompare_lt_trans h1 h
  · rwa [← h]

theorem strLt_irrefl (a : List Nat) : ¬ strLt a a := by
  intro h
  rw [strLt, lexCompare_self] at h
  cases h

theorem strLt_ne {a b : List Nat} (h : strLt a b) : a ≠ b := by
  intro he; subst he; exact strLt_irrefl a h

instance : IsTotal (List Nat) strLe where
  total a b := by
    rcases hc : lexCompare a b with h | h | h
    · exact Or.inl (by simp [strLe, hc])
    · exact Or.inl (by simp [strLe, hc])
    · refine Or.inr ?_
      rw [strLe, lexCompare_swap a b, hc]
      simp [Ordering.swap]

instance : IsTrans (List Nat) strLe where
  trans a b c hab hbc := by
    rcases strLe_or_eq_of_le hab with h | h
    · rcases strLe_or_eq_of_le hbc with h2 | h2
      · intro hg
        rw [lexCompare_lt_trans h h2] at hg
        cases hg
      · subst h2
        intro hg
        rw [h] at hg
        cases hg
    · subst h; exact hbc

theorem strLt_of_le_ne {a b : List Nat} (h1 : strLe a b) (h2 : a ≠ b) : strLt a b := by
  rcases strLe_or_eq_of_le h1 with h | h
  · exact h
  · exact absurd h h2

/-! ## Hex encoding lemmas -/

theorem hexDigitVal_hexDigitCode : ∀ n, n < 16 → hexDigitVal (hexDigitCode n) = some n := by
  decide

theorem hexDigitVal_lt {c v : Nat} (h : hexDigitVal c = some v) : v < 16 := by
  unfold hexDigitVal at h
  split_ifs at h with h1 h2 h3 <;> injection h with h' <;> omega

theorem hex2Bytes_encode : ∀ {bs : List Nat}, (∀ b ∈ bs, b < 256) →
    hex2Bytes (bs.flatMap byteToHexChars) = bs := by
  intro bs
  induction bs with
  | nil => intro _; rfl
  | cons b rest ih =>
    intro hwf
    have hb : b < 256 := hwf b (List.mem_cons_self b rest)
    have hhi : b / 16 < 16 := by omega
    have hlo : b % 16 < 16 := Nat.mod_lt _ (by omega)
    rw [List.flatMap_cons, byteToHexChars, List.cons_append, List.cons_append,
      List.nil_append, hex2Bytes, hexDigitVal_hexDigitCode _ hhi, hexDigitVal_hexDigitCode _ hlo]
    rw [ih (fun x hx => hwf x (List.mem_cons_of_mem b hx))]
    show (b / 16 * 16 + b % 16) :: rest = b :: rest
    have := Nat.div_add_mod b 16
    congr 1
    omega

theorem mem_hex2Bytes_lt : ∀ (s : List Nat), ∀ b ∈ hex2Bytes s, b < 256
  | [] => by intro b hb; cases hb
  | [_] => by intro b hb; cases hb
  | c1 :: c2 :: rest => by
    intro b hb
    rw [hex2Bytes] at hb
    rcases hv1 : hexDigitVal c1 with _ | v1 <;> rcases hv2 : hexDigitVal c2 with _ | v2 <;>
      simp only [hv1, hv2] at hb
    · cases hb
    · cases hb
    · cases hb
    · rcases List.mem_cons.mp hb with hb | hb
      · have := hexDigitVal_lt hv1
        have := hexDigitVal_lt hv2
        omega
      · exact mem_hex2Bytes_lt rest b hb

theorem length_flatMap_byteToHexChars (bs : List Nat) :
    (bs.flatMap byteToHexChars).length = 2 * bs.length := by
  induction bs with
  | nil => rfl
  | cons b rest ih =>
    rw [List.flatMap_cons, List.length_append, ih, byteToHexChars]
    simp [List.length_cons]
    omega

theorem bytesToAddress_length (b : List Nat) : (bytesToAddress b).length = 20 := by
  rw [bytesToAddress]
  split_ifs with h
  · simp only [List.length_append, List.length_replicate, List.length_drop]
    omega
  · simp only [List.length_append, List.length_replicate]
    omega

theorem mem_bytesToAddress_lt {b : List Nat} (hwf : ∀ x ∈ b, x < 256) :
    ∀ x ∈ bytesToAddress b, x < 256 := by
  intro x hx
  rw [bytesToAddress] at hx
  split_ifs at hx with h
  · rcases List.mem_append.mp hx with hx | hx
    · have := List.eq_of_mem_replicate hx
      omega
    · exact hwf x (List.mem_of_mem_drop hx)
  · rcases List.mem_append.mp hx with hx | hx
    · have := List.eq_of_mem_replicate hx
      omega
    · exact hwf x hx

theorem hexToAddress_wf (s : List Nat) : addrWF (hexToAddress s) := by
  refine ⟨bytesToAddress_length _, ?_⟩
  exact mem_bytesToAddress_lt (fun x hx => mem_hex2Bytes_lt _ x hx)

theorem stripHexPfx_0x (r : List Nat) : stripHexPfx (48 :: 120 :: r) = r := rfl

theorem fromHex_addrHex {a : List Nat} (hwf : addrWF a) : fromHex (addrHex a) = a := by
  rcases hwf with ⟨hlen, hlt⟩
  rw [addrHex, hexEncode, fromHex]
  simp only [List.cons_append, List.nil_append, stripHexPfx_0x]
  rw [length_flatMap_byteToHexChars]
  rw [if_neg (by omega)]
  exact hex2Bytes_encode hlt

theorem hexToAddress_addrHex {a : List Nat} (hwf : addrWF a) : hexToAddress (addrHex a) = a := by
  have hlen : a.length = 20 := hwf.1
  rw [hexToAddress, fromHex_addrHex hwf, bytesToAddress]
  rw [if_neg (by omega), hlen]
  simp

theorem addrHex_inj {a a' : List Nat} (h1 : addrWF a) (h2 : addrWF a')
    (he : addrHex a = addrHex a') : a = a' := by
  have := congrArg hexToAddress he
  rwa [hexToAddress_addrHex h1, hexToAddress_addrHex h2] at this

/-! ## The difference iterator on identical tries -/

theorem diffLeaves_self (t : Trie) : diffLeaves t t = [] := by
  rw [diffLeaves.eq_def]
  simp

/-! ## Claim C1 -/

/-- C1: for every pair of identical roots `r` (opening to some trie) and
every block number and hash, `BuildStateDiff(r, r, blockNumber,
blockHash)` succeeds and returns a `StateDiff` with empty created,
deleted and updated collections and the supplied block number and hash. -/
theorem buildStateDiff_identical_roots_empty (env : Env) (r : List Nat) (bn : Int)
    (bh : List Nat) (t : Trie) (h : env.openTrie r = Except.ok t) :
    BuildStateDiff env r r bn bh = Out.ok ⟨bn, bh, [], [], []⟩ := by
  unfold BuildStateDiff collectDiffNodes
  rw [h]
  simp only [diffLeaves_self, goCollectU, Option.getD, sortKeys, akeys, List.map_nil,
    List.insertionSort, findIntersection, buildDiffIncremental, goInc, buildDiffEventual, goEv]

/-- Witness for C1 at a concrete environment and root. -/
theorem buildStateDiff_identical_roots_empty_witness :
    envTriv.openTrie [0] = Except.ok (Trie.node []) ∧
    BuildStateDiff envTriv [0] [0] 5 [9] = Out.ok ⟨5, [9], [], [], []⟩ :=
  ⟨rfl, buildStateDiff_identical_roots_empty envTriv [0] 5 [9] (Trie.node []) rfl⟩

/-! ## Claim C2 -/

/-- C2 (code bug): on a difference iterator emitting one leaf whose
address resolves and whose blob decodes, `collectDiffNodes` of
`statediff/builder.go` panics by writing to its never-initialised
`diffAccounts` map, while the `part_009` revision (which initialises the
map empty, as the claim and the spec require) completes and returns the
decoded account under the resolved address. -/
theorem collectDiffNodes_uninitialised_map_panics :
    diffLeaves tA2 tB2 = [⟨[1, 2, 16], [18], [7]⟩] ∧
    collectDiffNodes env2x tA2 tB2 = Out.panicked ∧
    collectDiffNodesB env2x tA2 tB2 = Out.ok [(List.replicate 20 1, acct2x)] :=
  ⟨rfl, rfl, rfl⟩

/-! ## Service-state invariant lemmas -/

theorem svcInv_init : svcInv initSvc := by
  constructor
  · exact Or.inl rfl
  · simp [initSvc]

theorem svcInv_step {s : SvcState} (op : SOp) (h : svcInv s)
    (hnc : ∀ q, op ≠ SOp.closeOp q) : svcInv (stepSvc op s) := by
  obtain ⟨hrange, hiff⟩ := h
  cases op with
  | subOp id sn =>
    refine ⟨?_, ?_⟩
    · simp only [stepSvc, subscribeSvc, cas]
      rcases hrange with hg | hg <;> rw [hg] <;> simp
    · simp only [stepSvc, subscribeSvc, cas]
      rcases hrange with hg | hg <;> rw [hg] <;> simp [ainsert]
  | unsubOp id =>
    simp only [stepSvc, unsubscribeSvc]
    rcases hlk : alookup id s.subs with _ | sn
    · exact ⟨hrange, hiff⟩
    · have hne : s.subs ≠ [] := by
        intro he; rw [he] at hlk; cases hlk
      have hg1 : s.gate = 1 := hiff.mpr hne
      by_cases he : aerase id s.subs = []
      · rw [if_pos he]
        refine ⟨Or.inl ?_, ?_⟩ <;> simp [cas, hg1, he]
      · rw [if_neg he]
        refine ⟨hrange, ?_⟩
        simp [hg1, he]
  | sendOp ready quitReady =>
    simp only [stepSvc, sendSvc]
    by_cases he : s.subs.filter (fun p => ready p.1) = []
    · rw [if_pos he]
      refine ⟨Or.inl ?_, ?_⟩ <;> rcases hrange with hg | hg <;> simp [cas, hg, he]
    · rw [if_neg he]
      have hne : s.subs ≠ [] := by
        intro h0; rw [h0] at he; exact he rfl
      have hg1 : s.gate = 1 := hiff.mpr hne
      exact ⟨hrange, by simp [hg1, he]⟩
  | closeOp q => exact absurd rfl (hnc q)

theorem svcInv_runOps : ∀ (ops : List SOp) (s : SvcState), svcInv s →
    (∀ op ∈ ops, ∀ q, op ≠ SOp.closeOp q) → svcInv (runOps s ops) := by
  intro ops
  induction ops with
  | nil => intro s h _; exact h
  | cons op rest ih =>
    intro s h hnc
    rw [runOps]
    exact ih _ (svcInv_step op h (hnc op (List.mem_cons_self op rest)))
      (fun op2 h2 => hnc op2 (List.mem_cons_of_mem op h2))

/-! ## Claim C7 -/

/-- C7 counterexample: after `Subscribe` followed by `close`, the
registry is empty but the gate is still 1, because `close` removes every
subscription without touching the `subscribers` gate. -/
theorem close_gate_stays_one_cex :
    (runOps initSvc [SOp.subOp [1] ⟨0, 0⟩, SOp.closeOp (fun _ => false)]).subs = [] ∧
    (runOps initSvc [SOp.subOp [1] ⟨0, 0⟩, SOp.closeOp (fun _ => false)]).gate = 1 :=
  ⟨rfl, rfl⟩

/-- C7 amended: in every state reachable from the initial state by
`Subscribe`, `Unsubscribe` and `send` (no `close`), the gate equals 1 iff
the registry is non-empty; `close` empties the registry but leaves the
gate unchanged (so it is 0 after `close` only if it was 0 before). -/
theorem gate_invariant_amended :
    (∀ ops : List SOp, (∀ op ∈ ops, ∀ q, op ≠ SOp.closeOp q) →
      ((runOps initSvc ops).gate = 1 ↔ (runOps initSvc ops).subs ≠ [])) ∧
    (∀ (q : List Nat → Bool) (s : SvcState),
      (closeSvc q s).1.subs = [] ∧ (closeSvc q s).1.gate = s.gate) := by
  constructor
  · intro ops hnc
    exact (svcInv_runOps ops initSvc svcInv_init hnc).2
  · intro q s
    exact ⟨rfl, rfl⟩

/-- Witness for C7's amended theorem on a concrete operation sequence. -/
theorem gate_invariant_amended_witness :
    (runOps initSvc [SOp.subOp [1] ⟨0, 0⟩]).gate = 1 ↔
      (runOps initSvc [SOp.subOp [1] ⟨0, 0⟩]).subs ≠ [] :=
  gate_invariant_amended.1 [SOp.subOp [1] ⟨0, 0⟩]
    (by
      intro op hmem q
      rcases List.mem_singleton.mp hmem with rfl
      simp)

/-! ## Claim C8 -/

/-- C8: after `send(payload)` returns, every subscription whose payload
channel accepted the payload is still registered unchanged; every
subscription whose payload channel was not ready has been removed,
independently of whether its best-effort quit signal landed; and if the
registry is empty after the pass the gate is 0. -/
theorem send_eviction_spec (s : SvcState) (ready quitReady : List Nat → Bool)
    (hg : s.gate = 0 ∨ s.gate = 1) :
    (∀ id sn, alookup id s.subs = some sn → ready id = true →
      alookup id (sendSvc ready quitReady s).1.subs = some sn) ∧
    (∀ id, ready id = false → alookup id (sendSvc ready quitReady s).1.subs = none) ∧
    ((sendSvc ready quitReady s).1.subs = [] → (sendSvc ready quitReady s).1.gate = 0) ∧
    (∀ quitReady2 : List Nat → Bool, (sendSvc ready quitReady2 s).1 = (sendSvc ready quitReady s).1) := by
  refine ⟨?_, ?_, ?_, ?_⟩
  · intro id sn hlk hr
    show alookup id (s.subs.filter (fun p => ready p.1)) = some sn
    rw [alookup_filter_key, if_pos hr, hlk]
  · intro id hr
    show alookup id (s.subs.filter (fun p => ready p.1)) = none
    rw [alookup_filter_key, hr]
    simp
  · intro he
    replace he : s.subs.filter (fun p => ready p.1) = [] := he
    show (if s.subs.filter (fun p => ready p.1) = [] then cas s.gate 1 0 else s.gate) = 0
    rw [if_pos he]
    rcases hg with hg | hg <;> rw [hg] <;> rfl
  · intro quitReady2
    rfl

/-- Witness for C8 at a concrete two-subscriber state where only the
first payload channel is ready. -/
theorem send_eviction_spec_witness :
    (((⟨[([1], ⟨1, 2⟩), ([2], ⟨3, 4⟩)], 1⟩ : SvcState).gate = 0 ∨
      (⟨[([1], ⟨1, 2⟩), ([2], ⟨3, 4⟩)], 1⟩ : SvcState).gate = 1) ∧
    ((∀ id sn, alookup id (⟨[([1], ⟨1, 2⟩), ([2], ⟨3, 4⟩)], 1⟩ : SvcState).subs = some sn →
        (fun id2 => decide (id2 = [1])) id = true →
        alookup id (sendSvc (fun id2 => decide (id2 = [1])) (fun _ => true)
          ⟨[([1], ⟨1, 2⟩), ([2], ⟨3, 4⟩)], 1⟩).1.subs = some sn) ∧
      (∀ id, (fun id2 => decide (id2 = [1])) id = false →
        alookup id (sendSvc (fun id2 => decide (id2 = [1])) (fun _ => true)
          ⟨[([1], ⟨1, 2⟩), ([2], ⟨3, 4⟩)], 1⟩).1.subs = none) ∧
      ((sendSvc (fun id2 => decide (id2 = [1])) (fun _ => true)
          ⟨[([1], ⟨1, 2⟩), ([2], ⟨3, 4⟩)], 1⟩).1.subs = [] →
        (sendSvc (fun id2 => decide (id2 = [1])) (fun _ => true)
          ⟨[([1], ⟨1, 2⟩), ([2], ⟨3, 4⟩)], 1⟩).1.gate = 0) ∧
      (∀ quitReady2 : List Nat → Bool,
        (sendSvc (fun id2 => decide (id2 = [1])) quitReady2
          ⟨[([1], ⟨1, 2⟩), ([2], ⟨3, 4⟩)], 1⟩).1 =
        (sendSvc (fun id2 => decide (id2 = [1])) (fun _ => true)
          ⟨[([1], ⟨1, 2⟩), ([2], ⟨3, 4⟩)], 1⟩).1))) :=
  ⟨Or.inr rfl,
   send_eviction_spec ⟨[([1], ⟨1, 2⟩), ([2], ⟨3, 4⟩)], 1⟩
     (fun id2 => decide (id2 = [1])) (fun _ => true) (Or.inr rfl)⟩

/-! ## Claim C9 -/

/-- C9: with a non-empty watched list every address kept by
`filterByWatchedAddresses` parses from some configured watched string
(case-insensitive hex comparison via canonical `Hex()` forms) and maps to
its original unmodified entry; with an empty watched list the state
changes pass through unchanged. -/
theorem filterByWatchedAddresses_spec (watched : List (List Nat))
    (changes : AMap ModifiedAccount) (hwf : ∀ a ∈ akeys changes, addrWF a) :
    (watched ≠ [] → ∀ addr macct,
      alookup addr (filterByWatchedAddresses watched changes) = some macct →
      (∃ w ∈ watched, hexToAddress w = addr) ∧ alookup addr changes = some macct) ∧
    (watched = [] → filterByWatchedAddresses watched changes = changes) := by
  constructor
  · intro hne addr macct hlk
    have hlen : watched.length > 0 := List.length_pos.mpr hne
    rw [filterByWatchedAddresses, if_pos hlen, alookup_filter_key] at hlk
    by_cases hf : addressInWatchedAddresses watched addr
    · rw [if_pos hf] at hlk
      refine ⟨?_, hlk⟩
      rcases List.any_eq_true.mp hf with ⟨w, hw, hdec⟩
      have heq : addrHex (hexToAddress w) = addrHex addr := of_decide_eq_true hdec
      have haddr : addrWF addr := by
        apply hwf
        rw [mem_akeys_alookup, hlk]
        simp
      exact ⟨w, hw, addrHex_inj (hexToAddress_wf w) haddr heq⟩
    · rw [if_neg hf] at hlk
      cases hlk
  · intro he
    subst he
    rfl

/-- Witness for C9: one watched address, a two-entry change set. -/
theorem filterByWatchedAddresses_spec_witness :
    (∀ a ∈ akeys [(a9, ma9), (b9, mb9)], addrWF a) ∧
    (([addrHex a9] : List (List Nat)) ≠ [] → ∀ addr macct,
      alookup addr (filterByWatchedAddresses [addrHex a9] [(a9, ma9), (b9, mb9)]) = some macct →
      (∃ w ∈ [addrHex a9], hexToAddress w = addr) ∧
        alookup addr [(a9, ma9), (b9, mb9)] = some macct) ∧
    (([addrHex a9] : List (List Nat)) = [] →
      filterByWatchedAddresses [addrHex a9] [(a9, ma9), (b9, mb9)] = [(a9, ma9), (b9, mb9)]) :=
  ⟨by decide, filterByWatchedAddresses_spec [addrHex a9] [(a9, ma9), (b9, mb9)] (by decide)⟩

/-! ## Claim C10 -/

/-- C10: `Subscribe` with an id already present silently replaces that
subscription's channels: the new channels are registered under the id,
all other subscriptions are untouched, the registry size is unchanged, no
quit signal or error is produced, and the gate stays 1. -/
theorem subscribe_overwrite_spec (s : SvcState) (id : List Nat) (oldSn newSn : Subn)
    (hmem : alookup id s.subs = some oldSn) (hg : s.gate = 1)
    (hnd : (akeys s.subs).Nodup) :
    alookup id (subscribeSvc id newSn s).1.subs = some newSn ∧
    (∀ id2, id2 ≠ id → alookup id2 (subscribeSvc id newSn s).1.subs = alookup id2 s.subs) ∧
    (subscribeSvc id newSn s).1.subs.length = s.subs.length ∧
    (subscribeSvc id newSn s).1.gate = 1 ∧
    (subscribeSvc id newSn s).2.quitSignalled = [] ∧
    (subscribeSvc id newSn s).2.errOut = none := by
  refine ⟨?_, ?_, ?_, ?_, rfl, rfl⟩
  · exact alookup_ainsert_self id newSn
  · intro id2 h2
    exact alookup_ainsert_ne h2 newSn
  · show (ainsert id newSn s.subs).length = s.subs.length
    rw [ainsert, List.length_cons]
    exact aerase_length hmem hnd
  · show cas s.gate 0 1 = 1
    rw [hg]
    rfl

/-- Witness for C10: a one-subscription registry whose channels are
replaced. -/
theorem subscribe_overwrite_spec_witness :
    (alookup [7] (⟨[([7], ⟨1, 2⟩)], 1⟩ : SvcState).subs = some ⟨1, 2⟩ ∧
     (⟨[([7], ⟨1, 2⟩)], 1⟩ : SvcState).gate = 1 ∧
     (akeys (⟨[([7], ⟨1, 2⟩)], 1⟩ : SvcState).subs).Nodup) ∧
    (alookup [7] (subscribeSvc [7] ⟨9, 9⟩ ⟨[([7], ⟨1, 2⟩)], 1⟩).1.subs = some ⟨9, 9⟩ ∧
     (∀ id2, id2 ≠ [7] → alookup id2 (subscribeSvc [7] ⟨9, 9⟩ ⟨[([7], ⟨1, 2⟩)], 1⟩).1.subs =
       alookup id2 (⟨[([7], ⟨1, 2⟩)], 1⟩ : SvcState).subs) ∧
     (subscribeSvc [7] ⟨9, 9⟩ ⟨[([7], ⟨1, 2⟩)], 1⟩).1.subs.length =
       (⟨[([7], ⟨1, 2⟩)], 1⟩ : SvcState).subs.length ∧
     (subscribeSvc [7] ⟨9, 9⟩ ⟨[([7], ⟨1, 2⟩)], 1⟩).1.gate = 1 ∧
     (subscribeSvc [7] ⟨9, 9⟩ ⟨[([7], ⟨1, 2⟩)], 1⟩).2.quitSignalled = [] ∧
     (subscribeSvc [7] ⟨9, 9⟩ ⟨[([7], ⟨1, 2⟩)], 1⟩).2.errOut = none) :=
  ⟨⟨rfl, rfl, by decide⟩,
   subscribe_overwrite_spec ⟨[([7], ⟨1, 2⟩)], 1⟩ [7] ⟨1, 2⟩ ⟨9, 9⟩ rfl rfl (by decide)⟩

/-! ## `findIntersection` lemmas -/

theorem findIntersection_sublist_left :
    ∀ (a b : List (List Nat)), (findIntersection a b).Sublist a := by
  intro a
  induction a with
  | nil => intro b; cases b <;> simp [findIntersection]
  | cons x as iha =>
    intro b
    induction b with
    | nil => simp [findIntersection]
    | cons y bs ihb =>
      rw [findIntersection]
      rcases hc : lexCompare x y with h | h | h <;> simp only []
      · exact (iha (y :: bs)).cons x
      · exact (iha bs).cons₂ x
      · exact ihb

theorem findIntersection_sublist_right :
    ∀ (a b : List (List Nat)), (findIntersection a b).Sublist b := by
  intro a
  induction a with
  | nil => intro b; cases b <;> simp [findIntersection]
  | cons x as iha =>
    intro b
    induction b with
    | nil => simp [findIntersection]
    | cons y bs ihb =>
      rw [findIntersection]
      rcases hc : lexCompare x y with h | h | h <;> simp only []
      · exact iha (y :: bs)
      · rw [lexCompare_eq_iff.mp hc]
        exact (iha bs).cons₂ y
      · exact ihb.cons y

theorem findIntersection_complete :
    ∀ (a b : List (List Nat)), a.Pairwise strLe → b.Pairwise strLe →
      ∀ s, s ∈ a → s ∈ b → s ∈ findIntersection a b := by
  intro a
  induction a with
  | nil => intro b _ _ s hs; cases hs
  | cons x as iha =>
    intro b ha
    have hxle := (List.pairwise_cons.mp ha).1
    have has := (List.pairwise_cons.mp ha).2
    induction b with
    | nil => intro _ s _ hs; cases hs
    | cons y bs ihb =>
      intro hb s hsa hsb
      have hyle := (List.pairwise_cons.mp hb).1
      have hbs := (List.pairwise_cons.mp hb).2
      rw [findIntersection]
      rcases hc : lexCompare x y with h | h | h <;> simp only []
      · rcases List.mem_cons.mp hsa with rfl | hsa2
        · rcases List.mem_cons.mp hsb with rfl | hsb2
          · rw [lexCompare_self] at hc
            cases hc
          · have hys : strLe y s := hyle s hsb2
            exact absurd (strLt_of_lt_of_le hc hys) (strLt_irrefl s)
        · exact iha (y :: bs) has hb s hsa2 hsb
      · have hxy : x = y := lexCompare_eq_iff.mp hc
        rcases List.mem_cons.mp hsa with rfl | hsa2
        · exact List.mem_cons_self _ _
        · rcases List.mem_cons.mp hsb with rfl | hsb2
          · rw [hxy]
            exact List.mem_cons_self _ _
          · exact List.mem_cons_of_mem _ (iha bs has hbs s hsa2 hsb2)
      · rcases List.mem_cons.mp hsb with rfl | hsb2
        · rcases List.mem_cons.mp hsa with heq | hsa2
          · rw [heq, lexCompare_self] at hc
            cases hc
          · exact absurd hc (hxle s hsa2)
        · exact ihb hbs s hsa hsb2

/-! ## `sortKeys` lemmas -/

theorem sortKeys_mem {m : AMap Account} {s : List Nat} :
    s ∈ sortKeys m ↔ s ∈ (akeys m).map addrHex :=
  (List.perm_insertionSort strLe _).mem_iff

theorem sortKeys_sorted (m : AMap Account) : (sortKeys m).Pairwise strLe :=
  List.sorted_insertionSort strLe _

theorem sortKeys_pairwise_lt (m : AMap Account) (hnd : (akeys m).Nodup)
    (hwf : ∀ a ∈ akeys m, addrWF a) : (sortKeys m).Pairwise strLt := by
  have hmapnd : ((akeys m).map addrHex).Nodup := by
    refine List.Nodup.map_on ?_ hnd
    intro x hx y hy hxy
    exact addrHex_inj (hwf x hx) (hwf y hy) hxy
  have hnd2 : (sortKeys m).Nodup :=
    ((List.perm_insertionSort strLe _).nodup_iff).mpr hmapnd
  have := List.Pairwise.and (sortKeys_sorted m) hnd2
  exact this.imp (fun h => strLt_of_le_ne h.1 h.2)

/-! ## Claim C4 -/

/-- C4: `findIntersection (sortKeys creations) (sortKeys deletions)`
contains exactly the `Hex()` strings of the addresses present in both
maps, strictly ascending and duplicate-free. -/
theorem updatedKeys_sorted_intersection (c d : AMap Account)
    (hndc : (akeys c).Nodup) (hndd : (akeys d).Nodup)
    (hwc : ∀ a ∈ akeys c, addrWF a) (hwd : ∀ a ∈ akeys d, addrWF a) :
    (∀ s, s ∈ findIntersection (sortKeys c) (sortKeys d) ↔
      ∃ a, a ∈ akeys c ∧ a ∈ akeys d ∧ s = addrHex a) ∧
    (findIntersection (sortKeys c) (sortKeys d)).Pairwise strLt ∧
    (findIntersection (sortKeys c) (sortKeys d)).Nodup := by
  have hpw : (findIntersection (sortKeys c) (sortKeys d)).Pairwise strLt :=
    (sortKeys_pairwise_lt c hndc hwc).sublist (findIntersection_sublist_left _ _)
  refine ⟨?_, hpw, hpw.imp (fun h => strLt_ne h)⟩
  intro s
  constructor
  · intro hs
    have hsc : s ∈ sortKeys c := (findIntersection_sublist_left _ _).subset hs
    have hsd : s ∈ sortKeys d := (findIntersection_sublist_right _ _).subset hs
    rcases List.mem_map.mp (sortKeys_mem.mp hsc) with ⟨a, hac, rfl⟩
    rcases List.mem_map.mp (sortKeys_mem.mp hsd) with ⟨a2, had, he2⟩
    have : a2 = a := addrHex_inj (hwd a2 had) (hwc a hac) he2
    subst this
    exact ⟨a2, hac, had, rfl⟩
  · rintro ⟨a, hac, had, rfl⟩
    refine findIntersection_complete _ _ (sortKeys_sorted c) (sortKeys_sorted d) _ ?_ ?_
    · exact sortKeys_mem.mpr (List.mem_map_of_mem addrHex hac)
    · exact sortKeys_mem.mpr (List.mem_map_of_mem addrHex had)

/-- Witness for C4 on concrete two-entry and one-entry maps. -/
theorem updatedKeys_sorted_intersection_witness :
    ((akeys [(a4, (⟨0, 0, [], []⟩ : Account)), (a9, ⟨0, 0, [], []⟩)]).Nodup ∧
     (akeys [(a4, (⟨1, 1, [], []⟩ : Account))]).Nodup ∧
     (∀ a ∈ akeys [(a4, (⟨0, 0, [], []⟩ : Account)), (a9, ⟨0, 0, [], []⟩)], addrWF a) ∧
     (∀ a ∈ akeys [(a4, (⟨1, 1, [], []⟩ : Account))], addrWF a)) ∧
    ((∀ s, s ∈ findIntersection
        (sortKeys [(a4, ⟨0, 0, [], []⟩), (a9, ⟨0, 0, [], []⟩)])
        (sortKeys [(a4, ⟨1, 1, [], []⟩)]) ↔
      ∃ a, a ∈ akeys [(a4, (⟨0, 0, [], []⟩ : Account)), (a9, ⟨0, 0, [], []⟩)] ∧
        a ∈ akeys [(a4, (⟨1, 1, [], []⟩ : Account))] ∧ s = addrHex a) ∧
     (findIntersection (sortKeys [(a4, ⟨0, 0, [], []⟩), (a9, ⟨0, 0, [], []⟩)])
        (sortKeys [(a4, ⟨1, 1, [], []⟩)])).Pairwise strLt ∧
     (findIntersection (sortKeys [(a4, ⟨0, 0, [], []⟩), (a9, ⟨0, 0, [], []⟩)])
        (sortKeys [(a4, ⟨1, 1, [], []⟩)])).Nodup) :=
  ⟨⟨by decide, by decide, by decide, by decide⟩,
   updatedKeys_sorted_intersection _ _ (by decide) (by decide) (by decide) (by decide)⟩

/-! ## Claim C5 -/

/-- C5 counterexample: the difference iterator emits one storage leaf,
its old-value lookup fails with a node-store error, and
`buildStorageDiffsIncremental` nonetheless succeeds — with the leaf
silently skipped — instead of failing the diff with that error. -/
theorem storage_incremental_error_skipped_cex :
    diffLeaves trOld5 trNew5 = [⟨[2, 16], [2], [6]⟩] ∧
    env5x.tryGet [0] [2] = Except.error ⟨3⟩ ∧
    buildStorageDiffsIncremental env5x [0] [1] = Out.ok [] :=
  ⟨rfl, rfl, rfl⟩

theorem goStorageInc_lookup (env : Env) (oldSR : List Nat) :
    ∀ (leaves : List LeafData) (m0 : AMap DiffString) (p : List Nat) (e : DiffString),
      alookup p (goStorageInc env oldSR leaves m0) = some e →
      alookup p m0 = some e ∨
        ∃ l ∈ leaves, p = pathToStr l.path ∧
          ∃ v, env.tryGet oldSR l.leafKey = Except.ok v ∧
            e = ⟨some (toHex l.blob), some (toHex v)⟩ := by
  intro leaves
  induction leaves with
  | nil => intro m0 p e h; exact Or.inl h
  | cons l rest ih =>
    intro m0 p e h
    rw [goStorageInc] at h
    rcases hv : env.tryGet oldSR l.leafKey with ev | v <;> rw [hv] at h
    · rcases ih m0 p e h with h1 | ⟨l2, hl2, h2⟩
      · exact Or.inl h1
      · exact Or.inr ⟨l2, List.mem_cons_of_mem l hl2, h2⟩
    · rcases ih _ p e h with h1 | ⟨l2, hl2, h2⟩
      · by_cases hp : p = pathToStr l.path
        · subst hp
          rw [alookup_ainsert_self] at h1
          injection h1 with h1
          exact Or.inr ⟨l, List.mem_cons_self l rest, rfl, v, hv, h1.symm⟩
        · rw [alookup_ainsert_ne hp] at h1
          exact Or.inl h1
      · exact Or.inr ⟨l2, List.mem_cons_of_mem l hl2, h2⟩

theorem goStorageInc_notmem (env : Env) (oldSR : List Nat) :
    ∀ (leaves : List LeafData) (m0 : AMap DiffString) (p : List Nat),
      p ∉ leaves.map (fun l => pathToStr l.path) →
      alookup p (goStorageInc env oldSR leaves m0) = alookup p m0 := by
  intro leaves
  induction leaves with
  | nil => intro m0 p _; rfl
  | cons l rest ih =>
    intro m0 p hp
    rw [List.map_cons, List.mem_cons] at hp
    push_neg at hp
    rw [goStorageInc]
    rcases hv : env.tryGet oldSR l.leafKey with ev | v
    · exact ih m0 p hp.2
    · rw [ih _ p hp.2, alookup_ainsert_ne hp.1]

theorem goStorageInc_complete (env : Env) (oldSR : List Nat) :
    ∀ (leaves : List LeafData) (m0 : AMap DiffString),
      (leaves.map (fun l => pathToStr l.path)).Nodup →
      ∀ l ∈ leaves, ∀ v, env.tryGet oldSR l.leafKey = Except.ok v →
        alookup (pathToStr l.path) (goStorageInc env oldSR leaves m0) =
          some ⟨some (toHex l.blob), some (toHex v)⟩ := by
  intro leaves
  induction leaves with
  | nil => intro m0 _ l hl; cases hl
  | cons l2 rest ih =>
    intro m0 hnd l hl v hv
    rw [List.map_cons, List.nodup_cons] at hnd
    rcases List.mem_cons.mp hl with rfl | hl2
    · rw [goStorageInc, hv, goStorageInc_notmem env oldSR rest _ _ hnd.1,
        alookup_ainsert_self]
    · rw [goStorageInc]
      rcases hv2 : env.tryGet oldSR l2.leafKey with ev | v2
      · exact ih m0 hnd.2 l hl2 v hv
      · exact ih _ hnd.2 l hl2 v hv

/-- C5 amended: given both storage tries open,
`buildStorageDiffsIncremental` always succeeds; every recorded entry
stems from an emitted leaf whose old-value lookup succeeded and carries
both the new value and the looked-up old value; and (when emitted leaf
paths are distinct) every emitted leaf whose old-value lookup succeeds is
recorded with both sides.  A node-store error during the old-value lookup
only causes that leaf to be skipped (it is logged), not the diff to fail. -/
theorem storage_incremental_amended (env : Env) (oldSR newSR : List Nat) (oldT newT : Trie)
    (h1 : env.openTrie oldSR = Except.ok oldT) (h2 : env.openTrie newSR = Except.ok newT) :
    ∃ m, buildStorageDiffsIncremental env oldSR newSR = Out.ok m ∧
      (∀ p e, alookup p m = some e →
        ∃ l ∈ diffLeaves oldT newT, p = pathToStr l.path ∧
          ∃ v, env.tryGet oldSR l.leafKey = Except.ok v ∧
            e = ⟨some (toHex l.blob), some (toHex v)⟩) ∧
      (((diffLeaves oldT newT).map (fun l => pathToStr l.path)).Nodup →
        ∀ l ∈ diffLeaves oldT newT, ∀ v, env.tryGet oldSR l.leafKey = Except.ok v →
          alookup (pathToStr l.path) m = some ⟨some (toHex l.blob), some (toHex v)⟩) := by
  refine ⟨goStorageInc env oldSR (diffLeaves oldT newT) [], ?_, ?_, ?_⟩
  · unfold buildStorageDiffsIncremental
    rw [h1, h2]
  · intro p e h
    rcases goStorageInc_lookup env oldSR _ [] p e h with h1 | h1
    · cases h1
    · exact h1
  · intro hnd l hl v hv
    exact goStorageInc_complete env oldSR _ [] hnd l hl v hv

/-- Witness for C5's amended theorem in the concrete environment whose
old-value lookups succeed with `[9]`. -/
theorem storage_incremental_amended_witness :
    ∃ m, buildStorageDiffsIncremental env5w [0] [1] = Out.ok m ∧
      (∀ p e, alookup p m = some e →
        ∃ l ∈ diffLeaves trOld5 trNew5, p = pathToStr l.path ∧
          ∃ v, env5w.tryGet [0] l.leafKey = Except.ok v ∧
            e = ⟨some (toHex l.blob), some (toHex v)⟩) ∧
      (((diffLeaves trOld5 trNew5).map (fun l => pathToStr l.path)).Nodup →
        ∀ l ∈ diffLeaves trOld5 trNew5, ∀ v, env5w.tryGet [0] l.leafKey = Except.ok v →
          alookup (pathToStr l.path) m = some ⟨some (toHex l.blob), some (toHex v)⟩) :=
  storage_incremental_amended env5w [0] [1] trOld5 trNew5 rfl rfl

/-! ## Claim C6 -/

/-- C6 counterexample: on an updated key whose old and new accounts have
different code hashes, the produced `AccountDiffIncremental` carries
new/old pairs for nonce, balance and contract root, but its `CodeHash`
field is the single hex string of the created (new) account's code hash —
no old-side code hash is recorded anywhere in the entry. -/
theorem updated_codeHash_single_sided_cex :
    buildDiffIncremental env6x [(addr6, ca6)] [(addr6, da6)] [addrHex addr6] =
      Out.ok ([(addr6, c6entry)], [], []) ∧
    c6entry.codeHash = toHex ca6.codeHash ∧
    toHex da6.codeHash ≠ toHex ca6.codeHash :=
  ⟨rfl, rfl, by decide⟩

theorem goInc_lookup_none (env : Env) :
    ∀ (keys : List (List Nat)) (c d : AMap Account) (acc : AMap AccountDiffIncremental)
      (r : AMap AccountDiffIncremental × AMap Account × AMap Account),
      goInc env keys c d acc = Out.ok r →
      ∀ val ∈ keys, alookup (hexToAddress val) c ≠ none := by
  intro keys
  induction keys with
  | nil => intro c d acc r _ val hval; cases hval
  | cons val2 rest ih =>
    intro c d acc r hok val hval
    rw [goInc] at hok
    split at hok
    · next createdAcc deletedAcc hc2 hd2 =>
      split at hok
      · exact Out.noConfusion hok
      · exact Out.noConfusion hok
      · next storageDiffs hst =>
        rcases List.mem_cons.mp hval with rfl | hval2
        · rw [hc2]; simp
        · intro hnone
          by_cases he : hexToAddress val = hexToAddress val2
          · exact ih _ _ _ _ hok val hval2 (by rw [he, alookup_aerase_self])
          · exact ih _ _ _ _ hok val hval2 (by rw [alookup_aerase_ne he, hnone])
    · next hnomatch => exact Out.noConfusion hok

theorem goInc_acc_stable (env : Env) :
    ∀ (keys : List (List Nat)) (c d : AMap Account) (acc : AMap AccountDiffIncremental)
      (m : AMap AccountDiffIncremental) (c' d' : AMap Account),
      goInc env keys c d acc = Out.ok (m, c', d') →
      ∀ a, alookup a c = none → alookup a m = alookup a acc := by
  intro keys
  induction keys with
  | nil =>
    intro c d acc m c' d' hok a _
    rw [goInc] at hok
    injection hok with h
    have h1 : acc = m := congrArg Prod.fst h
    rw [← h1]
  | cons val2 rest ih =>
    intro c d acc m c' d' hok a hnone
    rw [goInc] at hok
    split at hok
    · next createdAcc deletedAcc hc2 hd2 =>
      split at hok
      · exact Out.noConfusion hok
      · exact Out.noConfusion hok
      · next storageDiffs hst =>
        have hne : a ≠ hexToAddress val2 := by
          intro he
          rw [he, hc2] at hnone
          cases hnone
        rw [ih _ _ _ _ _ _ hok a (by rw [alookup_aerase_ne hne, hnone]),
          alookup_ainsert_ne hne]
    · next hnomatch => exact Out.noConfusion hok

theorem goInc_records (env : Env) :
    ∀ (keys : List (List Nat)) (c d : AMap Account) (acc : AMap AccountDiffIncremental)
      (m : AMap AccountDiffIncremental) (c' d' : AMap Account),
      goInc env keys c d acc = Out.ok (m, c', d') →
      ∀ val ∈ keys, ∀ ca da, alookup (hexToAddress val) c = some ca →
        alookup (hexToAddress val) d = some da →
        ∃ sd, alookup (hexToAddress val) m =
          some { nonce := ⟨some ca.nonce, some da.nonce⟩
                 balance := ⟨some ca.balance, some da.balance⟩
                 codeHash := toHex ca.codeHash
                 contractRoot := ⟨some (hexEncode ca.root), some (hexEncode da.root)⟩
                 storage := sd } := by
  intro keys
  induction keys with
  | nil => intro c d acc m c' d' _ val hval; cases hval
  | cons val2 rest ih =>
    intro c d acc m c' d' hok val hval ca da hca hda
    rw [goInc] at hok
    split at hok
    · next createdAcc deletedAcc hc2 hd2 =>
      split at hok
      · exact Out.noConfusion hok
      · exact Out.noConfusion hok
      · next storageDiffs hst =>
        rcases List.mem_cons.mp hval with rfl | hval2
        · rw [hca] at hc2
          injection hc2 with hc2
          rw [hda] at hd2
          injection hd2 with hd2
          subst hc2; subst hd2
          refine ⟨storageDiffs, ?_⟩
          rw [goInc_acc_stable env _ _ _ _ _ _ _ hok _ (alookup_aerase_self _),
            alookup_ainsert_self]
        · by_cases he : hexToAddress val = hexToAddress val2
          · exact absurd (by rw [he, alookup_aerase_self])
              (goInc_lookup_none env _ _ _ _ _ hok val hval2)
          · refine ih _ _ _ _ _ _ hok val hval2 ca da ?_ ?_
            · rw [alookup_aerase_ne he, hca]
            · rw [alookup_aerase_ne he, hda]
    · next hnomatch => exact Out.noConfusion hok

/-- C6 amended: for every key in `updatedKeys` present in both maps, the
updated-account entry of a successful `buildDiffIncremental` carries
new/old pairs for `nonce`, `balance` and `contract_root` (new side from
the `creations` account, old side from the `deletions` account), while
`code_hash` is recorded only as a single hex string taken from the
`creations` account — there is no old-side code hash. -/
theorem updated_account_fields_amended (env : Env) (keys : List (List Nat))
    (c d : AMap Account) (m : AMap AccountDiffIncremental) (c' d' : AMap Account)
    (hok : buildDiffIncremental env c d keys = Out.ok (m, c', d'))
    (val : List Nat) (hval : val ∈ keys) (ca da : Account)
    (hca : alookup (hexToAddress val) c = some ca)
    (hda : alookup (hexToAddress val) d = some da) :
    ∃ sd, alookup (hexToAddress val) m =
      some { nonce := ⟨some ca.nonce, some da.nonce⟩
             balance := ⟨some ca.balance, some da.balance⟩
             codeHash := toHex ca.codeHash
             contractRoot := ⟨some (hexEncode ca.root), some (hexEncode da.root)⟩
             storage := sd } :=
  goInc_records env keys c d [] m c' d' hok val hval ca da hca hda

/-- Witness for C6's amended theorem on the concrete updated account of
`env6x`. -/
theorem updated_account_fields_amended_witness :
    buildDiffIncremental env6x [(addr6, ca6)] [(addr6, da6)] [addrHex addr6] =
      Out.ok ([(addr6, c6entry)], [], []) ∧
    ∃ sd, alookup (hexToAddress (addrHex addr6)) [(addr6, c6entry)] =
      some { nonce := ⟨some ca6.nonce, some da6.nonce⟩
             balance := ⟨some ca6.balance, some da6.balance⟩
             codeHash := toHex ca6.codeHash
             contractRoot := ⟨some (hexEncode ca6.root), some (hexEncode da6.root)⟩
             storage := sd } :=
  ⟨rfl,
   updated_account_fields_amended env6x [addrHex addr6] [(addr6, ca6)] [(addr6, da6)]
     [(addr6, c6entry)] [] [] rfl (addrHex addr6) (List.mem_singleton.mpr rfl) ca6 da6
     (by decide) (by decide)⟩

/-! ## Claim C3 -/

theorem goIncB_sub (env : Env) :
    ∀ (keys : List (List Nat)) (c d : AMap Account) (acc : AMap AccountDiffIncrementalB)
      (m : AMap AccountDiffIncrementalB) (c' d' : AMap Account),
      goIncB env keys c d acc = Out.ok (m, c', d') →
      (∀ a, a ∈ akeys c' → a ∈ akeys c) ∧ (∀ a, a ∈ akeys d' → a ∈ akeys d) := by
  intro keys
  induction keys with
  | nil =>
    intro c d acc m c' d' hok
    rw [goIncB] at hok
    injection hok with h
    have hc : c = c' := congrArg (fun p => p.2.1) h
    have hd : d = d' := congrArg (fun p => p.2.2) h
    rw [← hc, ← hd]
    exact ⟨fun a ha => ha, fun a ha => ha⟩
  | cons val2 rest ih =>
    intro c d acc m c' d' hok
    rw [goIncB] at hok
    split at hok
    · next createdAcc deletedAcc hc2 hd2 =>
      split at hok
      · exact Out.noConfusion hok
      · exact Out.noConfusion hok
      · next storageDiffs hst =>
        obtain ⟨h1, h2⟩ := ih _ _ _ _ _ _ hok
        constructor
        · intro a ha
          exact (mem_akeys_aerase.mp (h1 a ha)).1
        · intro a ha
          exact (mem_akeys_aerase.mp (h2 a ha)).1
    · next hnomatch => exact Out.noConfusion hok

theorem goIncB_removed (env : Env) :
    ∀ (keys : List (List Nat)) (c d : AMap Account) (acc : AMap AccountDiffIncrementalB)
      (m : AMap AccountDiffIncrementalB) (c' d' : AMap Account),
      goIncB env keys c d acc = Out.ok (m, c', d') →
      ∀ val ∈ keys, hexToAddress val ∉ akeys c' ∧ hexToAddress val ∉ akeys d' := by
  intro keys
  induction keys with
  | nil => intro c d acc m c' d' _ val hval; cases hval
  | cons val2 rest ih =>
    intro c d acc m c' d' hok val hval
    rw [goIncB] at hok
    split at hok
    · next createdAcc deletedAcc hc2 hd2 =>
      split at hok
      · exact Out.noConfusion hok
      · exact Out.noConfusion hok
      · next storageDiffs hst =>
        obtain ⟨h1, h2⟩ := goIncB_sub env _ _ _ _ _ _ _ hok
        rcases List.mem_cons.mp hval with rfl | hval2
        · constructor
          · intro hmem
            exact (mem_akeys_aerase.mp (h1 _ hmem)).2 rfl
          · intro hmem
            exact (mem_akeys_aerase.mp (h2 _ hmem)).2 rfl
        · exact ih _ _ _ _ _ _ hok val hval2
    · next hnomatch => exact Out.noConfusion hok

theorem goIncB_mkeys (env : Env) :
    ∀ (keys : List (List Nat)) (c d : AMap Account) (acc : AMap AccountDiffIncrementalB)
      (m : AMap AccountDiffIncrementalB) (c' d' : AMap Account),
      goIncB env keys c d acc = Out.ok (m, c', d') →
      ∀ a ∈ akeys m, a ∈ akeys acc ∨ ∃ val ∈ keys, a = hexToAddress val := by
  intro keys
  induction keys with
  | nil =>
    intro c d acc m c' d' hok a ha
    rw [goIncB] at hok
    injection hok with h
    have hm : acc = m := congrArg Prod.fst h
    rw [← hm] at ha
    exact Or.inl ha
  | cons val2 rest ih =>
    intro c d acc m c' d' hok a ha
    rw [goIncB] at hok
    split at hok
    · next createdAcc deletedAcc hc2 hd2 =>
      split at hok
      · exact Out.noConfusion hok
      · exact Out.noConfusion hok
      · next storageDiffs hst =>
        rcases ih _ _ _ _ _ _ hok a ha with hacc | ⟨val, hv, he⟩
        · rcases mem_akeys_ainsert.mp hacc with he | hacc2
          · exact Or.inr ⟨val2, List.mem_cons_self _ _, he⟩
          · exact Or.inl hacc2
        · exact Or.inr ⟨val, List.mem_cons_of_mem _ hv, he⟩
    · next hnomatch => exact Out.noConfusion hok

theorem goEvB_keys_sub (env : Env) :
    ∀ (accounts : AMap Account) (acc out : AMap AccountDiffEventualB),
      goEvB env accounts acc = Out.ok out →
      ∀ k ∈ akeys out, k ∈ akeys acc ∨ k ∈ akeys accounts := by
  intro accounts
  induction accounts with
  | nil =>
    intro acc out hok k hk
    rw [goEvB] at hok
    injection hok with h
    rw [← h] at hk
    exact Or.inl hk
  | cons p rest ih =>
    intro acc out hok k hk
    rw [goEvB] at hok
    split at hok
    · exact Out.noConfusion hok
    · exact Out.noConfusion hok
    · next storageDiffs hst =>
      rcases ih _ _ hok k hk with hacc | hrest
      · rcases mem_akeys_ainsert.mp hacc with he | hacc2
        · refine Or.inr ?_
          rw [akeys, List.map_cons, he]
          exact List.mem_cons_self _ _
        · exact Or.inl hacc2
      · refine Or.inr ?_
        rw [akeys, List.map_cons]
        exact List.mem_cons_of_mem _ hrest
    
theorem addressByPath_ok_wf {env : Env} (hwf : EnvWF env) {p addr : List Nat}
    (h : addressByPath env p = Out.ok addr) : addrWF addr := by
  rw [addressByPath] at h
  split at h
  · exact Out.noConfusion h
  · next key hkey =>
    split at h
    · exact Out.noConfusion h
    · next addrBytes hget =>
      injection h with h
      rw [← h]
      exact ⟨bytesToAddress_length _, mem_bytesToAddress_lt (hwf _ _ hget)⟩

theorem goCollectB_wf {env : Env} (hwf : EnvWF env) :
    ∀ (leaves : List LeafData) (m0 : AMap Account),
      (∀ k ∈ akeys m0, addrWF k) → ∀ m, goCollectB env leaves m0 = Out.ok m →
      ∀ k ∈ akeys m, addrWF k := by
  intro leaves
  induction leaves with
  | nil =>
    intro m0 h0 m hok k hk
    rw [goCollectB] at hok
    injection hok with h
    rw [← h] at hk
    exact h0 k hk
  | cons l rest ih =>
    intro m0 h0 m hok k hk
    rw [goCollectB] at hok
    split at hok
    · exact Out.noConfusion hok
    · exact Out.noConfusion hok
    · next addr haddr =>
      split at hok
      · exact Out.noConfusion hok
      · next account hdec =>
        refine ih _ ?_ m hok k hk
        intro k2 hk2
        rcases mem_akeys_ainsert.mp hk2 with he | hk3
        · rw [he]
          exact addressByPath_ok_wf hwf haddr
        · exact h0 k2 hk3

/-- C3: the created, deleted and updated collections of every successful
`BuildStateDiff` result are pairwise disjoint by address: each updated
address is removed from both the creations and deletions maps before the
created and deleted collections are built.  (Stated on the `part_009`
revision of the pipeline, whose `collectDiffNodes` initialises its map;
the `statediff/builder.go` revision panics on any non-empty diff, see
claim C2.) -/
theorem buildStateDiffB_pairwise_disjoint (env : Env) (oldR newR : List Nat) (bn : Int)
    (bh : List Nat) (sd : StateDiffB) (hwf : EnvWF env)
    (hok : BuildStateDiffB env oldR newR bn bh = Out.ok sd) :
    ∀ a, ¬(a ∈ akeys sd.createdAccounts ∧ a ∈ akeys sd.deletedAccounts) ∧
         ¬(a ∈ akeys sd.createdAccounts ∧ a ∈ akeys sd.updatedAccounts) ∧
         ¬(a ∈ akeys sd.deletedAccounts ∧ a ∈ akeys sd.updatedAccounts) := by
  rw [BuildStateDiffB] at hok
  split at hok
  · exact Out.noConfusion hok
  · next oldT hopen1 =>
    split at hok
    · exact Out.noConfusion hok
    · next newT hopen2 =>
      split at hok
      · exact Out.noConfusion hok
      · exact Out.noConfusion hok
      · next creations hcr =>
        split at hok
        · exact Out.noConfusion hok
        · exact Out.noConfusion hok
        · next deletions hde =>
          simp only [] at hok
          split at hok
          · exact Out.noConfusion hok
          · exact Out.noConfusion hok
          · next incResult hinc =>
            obtain ⟨upd, c1, d1⟩ := incResult
            simp only [] at hok
            split at hok
            · exact Out.noConfusion hok
            · exact Out.noConfusion hok
            · next createdAccounts hev1 =>
              split at hok
              · exact Out.noConfusion hok
              · exact Out.noConfusion hok
              · next deletedAccounts hev2 =>
                injection hok with hok
                subst hok
                simp only []
                -- key facts
                have hcrwf : ∀ k ∈ akeys creations, addrWF k :=
                  goCollectB_wf hwf _ [] (by intro k hk; cases hk) _ hcr
                have hdewf : ∀ k ∈ akeys deletions, addrWF k :=
                  goCollectB_wf hwf _ [] (by intro k hk; cases hk) _ hde
                have hsub := goIncB_sub env _ _ _ _ _ _ _ hinc
                have hrem := goIncB_removed env _ _ _ _ _ _ _ hinc
                have hmk := goIncB_mkeys env _ _ _ _ _ _ _ hinc
                have hcsub := goEvB_keys_sub env _ _ _ hev1
                have hdsub := goEvB_keys_sub env _ _ _ hev2
                intro a
                have hcreated : a ∈ akeys createdAccounts → a ∈ akeys c1 := by
                  intro h
                  rcases hcsub a h with h2 | h2
                  · cases h2
                  · exact h2
                have hdeleted : a ∈ akeys deletedAccounts → a ∈ akeys d1 := by
                  intro h
                  rcases hdsub a h with h2 | h2
                  · cases h2
                  · exact h2
                have hupd : a ∈ akeys upd →
                    ∃ val ∈ findIntersection (sortKeys creations) (sortKeys deletions),
                      a = hexToAddress val := by
                  intro h
                  rcases hmk a h with h2 | h2
                  · cases h2
                  · exact h2
                refine ⟨?_, ?_, ?_⟩
                · rintro ⟨hc, hd⟩
                  have hac1 : a ∈ akeys c1 := hcreated hc
                  have had1 : a ∈ akeys d1 := hdeleted hd
                  have hacr : a ∈ akeys creations := hsub.1 a hac1
                  have hade : a ∈ akeys deletions := hsub.2 a had1
                  have hawf : addrWF a := hcrwf a hacr
                  have hmem : addrHex a ∈ findIntersection (sortKeys creations) (sortKeys deletions) := by
                    refine findIntersection_complete _ _ (sortKeys_sorted creations)
                      (sortKeys_sorted deletions) _ ?_ ?_
                    · exact sortKeys_mem.mpr (List.mem_map_of_mem addrHex hacr)
                    · exact sortKeys_mem.mpr (List.mem_map_of_mem addrHex hade)
                  have := (hrem (addrHex a) hmem).1
                  rw [hexToAddress_addrHex hawf] at this
                  exact this hac1
                · rintro ⟨hc, hu⟩
                  rcases hupd hu with ⟨val, hval, rfl⟩
                  exact (hrem val hval).1 (hcreated hc)
                · rintro ⟨hd, hu⟩
                  rcases hupd hu with ⟨val, hval, rfl⟩
                  exact (hrem val hval).2 (hdeleted hd)

/-- Witness for C3: the trivial environment and equal roots. -/
theorem buildStateDiffB_pairwise_disjoint_witness :
    EnvWF envTriv ∧
    (∀ a, ¬(a ∈ akeys (⟨1, [2], [], [], []⟩ : StateDiffB).createdAccounts ∧
            a ∈ akeys (⟨1, [2], [], [], []⟩ : StateDiffB).deletedAccounts) ∧
          ¬(a ∈ akeys (⟨1, [2], [], [], []⟩ : StateDiffB).createdAccounts ∧
            a ∈ akeys (⟨1, [2], [], [], []⟩ : StateDiffB).updatedAccounts) ∧
          ¬(a ∈ akeys (⟨1, [2], [], [], []⟩ : StateDiffB).deletedAccounts ∧
            a ∈ akeys (⟨1, [2], [], [], []⟩ : StateDiffB).updatedAccounts)) := by
  have hwf : EnvWF envTriv := by
    intro k v h b hb
    injection h with h
    rw [← h] at hb
    cases hb
  have hbuild : BuildStateDiffB envTriv [0] [0] 1 [2] = Out.ok ⟨1, [2], [], [], []⟩ := by
    unfold BuildStateDiffB collectDiffNodesB
    rw [show envTriv.openTrie [0] = Except.ok (Trie.node []) from rfl]
    simp only [diffLeaves_self, goCollectB, sortKeys, akeys, List.map_nil, List.insertionSort,
      findIntersection, buildDiffIncrementalB, goIncB, buildDiffEventualB, goEvB]
  exact ⟨hwf, buildStateDiffB_pairwise_disjoint envTriv [0] [0] 1 [2]
    ⟨1, [2], [], [], []⟩ hwf hbuild⟩
